import Mathlib

/-!
Verification of the Aurelia single-file-component Vite plugin
(`vite-plugin-aurelia-sfc`).  The development shallowly embeds the
plugin's string-processing and caching logic over `List Char` / `String`
and proves the specification claims about it.  External collaborators
(the `crypto` md5 digest, the HTML parser, the TypeScript transpiler and
the CSS preprocessor engines) are modelled as parameters or as abstract
inputs, exactly at the boundaries where the plugin calls them.
-/

namespace AureliaSfc

/-- The set of characters matched by the JavaScript regex class `\s`
and trimmed by `String.prototype.trim`. -/
def isJsWs (c : Char) : Bool :=
  c ∈ [' ', '\t', '\n', '\r', '\u000b', '\u000c', '\u00a0', '\u1680',
       '\u2000', '\u2001', '\u2002', '\u2003', '\u2004', '\u2005',
       '\u2006', '\u2007', '\u2008', '\u2009', '\u200a', '\u2028',
       '\u2029', '\u202f', '\u205f', '\u3000', '\ufeff']

/-- Drop trailing JavaScript whitespace. -/
def dropTrailWs (s : List Char) : List Char :=
  (s.reverse.dropWhile isJsWs).reverse

/-- `String.prototype.trim`: drop leading and trailing whitespace. -/
def jsTrim (s : List Char) : List Char :=
  dropTrailWs (s.dropWhile isJsWs)

/-- `String.prototype.includes(pat)`: `pat` occurs as a contiguous
substring of the scanned list. -/
def containsSub (pat : List Char) : List Char → Bool
  | [] => pat.isEmpty
  | c :: r => pat.isPrefixOf (c :: r) || containsSub pat r

/-- `Array.prototype.join(sep)`. -/
def joinSep (sep : List Char) : List (List Char) → List Char
  | [] => []
  | [x] => x
  | x :: xs => x ++ sep ++ joinSep sep xs

/-- `String.prototype.replace(pat, rep)` with a plain-string pattern:
replace the leftmost occurrence of `pat` only. -/
def replaceFirst (pat rep : List Char) : List Char → List Char
  | [] => if pat.isEmpty then rep else []
  | c :: s =>
    if pat.isPrefixOf (c :: s) then rep ++ (c :: s).drop pat.length
    else c :: replaceFirst pat rep s

/-- The JavaScript regex test `/^\d+%$/.test s`. -/
def digitsPercent (s : List Char) : Bool :=
  decide (2 ≤ s.length) && s.getLast? == some '%' && s.dropLast.all Char.isDigit

/-- `s.replace(/:global\(([^)]+)\)/g, "$1")`, fuel-indexed so that the
definition is structurally recursive and evaluates inside the kernel.
At each position: if `:global(` begins here and is followed by a
non-empty run of non-`)` characters and a `)`, the whole occurrence is
replaced by the run and scanning resumes after the `)`; otherwise one
character is emitted and scanning advances by one, as the JavaScript
regex engine does. -/
def globalReplaceAux : Nat → List Char → List Char
  | _, [] => []
  | 0, s => s
  | fuel + 1, c :: r =>
    if (":global(".data).isPrefixOf (c :: r) then
      let afterOpen := (c :: r).drop 8
      let inner := afterOpen.takeWhile (fun d => d ≠ ')')
      if inner.isEmpty then c :: globalReplaceAux fuel r
      else
        match afterOpen.drop inner.length with
        | ')' :: rest => inner ++ globalReplaceAux fuel rest
        | _ => c :: globalReplaceAux fuel r
    else c :: globalReplaceAux fuel r

/-- One global-replace pass removing every `:global(...)` wrapper.
The fuel `s.length` is enough: every step consumes at least one input
character. -/
def globalReplace (s : List Char) : List Char :=
  globalReplaceAux s.length s

/-- The selectors that `scopeStyles` never scopes
(`['html', 'body', '*', '::before', '::after']` in the source). -/
def globalSelectors : List (List Char) :=
  ["html".data, "body".data, "*".data, "::before".data, "::after".data]

/-- The per-selector rewriting of `scopeStyles` (the body of the
`selectors.map` callback in the source).  The argument has already been
trimmed by the caller, exactly as in the source.  `s.replace(':host',
"[" ++ scopeId ++ "]")` is modelled with `replaceFirst`; scope ids
produced by `generateScopeId` never contain `$`, so the replacement
string needs no `$`-pattern handling. -/
def scopeOneSelector (scopeId s : List Char) : List Char :=
  if s.isEmpty then s
  else if containsSub (":global(".data) s then globalReplace s
  else if (":host".data).isPrefixOf s then
    replaceFirst (":host".data) ('[' :: scopeId ++ [']']) s
  else if jsTrim s ∈ globalSelectors then s
  else if s.contains '%' || digitsPercent (jsTrim s) || s = "from".data
       || s = "to".data then s
  else s ++ '[' :: scopeId ++ [']']

/-- `String.prototype.split(sep)` with a one-character separator. -/
def splitOnChar (sep : Char) : List Char → List (List Char)
  | [] => [[]]
  | c :: r =>
    if c = sep then [] :: splitOnChar sep r
    else
      match splitOnChar sep r with
      | [] => [[c]]
      | p :: ps => (c :: p) :: ps

/-- The full replacement computed for one regex capture: split the
captured selector list on commas, trim each part, rewrite each part, and
rejoin with a comma and a space. -/
def scopeSelectorList (scopeId region : List Char) : List Char :=
  joinSep (", ".data)
    (((splitOnChar ',' region).map jsTrim).map (scopeOneSelector scopeId))

/-- The action of `css.replace(/([^{}@]*?)\s*{/g, fn)`.  A match of the
regex starting at position `i` exists exactly when the first of the
characters `{`, `}`, `@` at or after `i` is a `{`; the capture is the
text from `i` up to the start of the maximal whitespace run preceding
that `{`.  The scan therefore accumulates ordinary characters in
`pending`; a `{` turns `pending` (minus trailing whitespace) into a
capture and emits the replacement, while `}` and `@` can never be part
of a match and are flushed verbatim, resetting the match start. -/
def scopeScan (f : List Char → List Char) (pending : List Char) :
    List Char → List Char
  | [] => pending
  | c :: rest =>
    if c = '{' then
      f (dropTrailWs pending) ++ ' ' :: '{' :: scopeScan f [] rest
    else if c = '}' ∨ c = '@' then
      pending ++ c :: scopeScan f [] rest
    else scopeScan f (pending ++ [c]) rest

/-- `scopeStyles(css, scopeId)` of the source.  The dead
`if (selector.includes('@')) return match` branch of the callback is
not modelled: the capture group `([^{}@]*?)` can never contain `@`, so
that guard is unreachable in the source.  The `try`/`catch` wrapper is
not modelled either: no step of the pure rewriting can throw. -/
def scopeStylesL (css scopeId : List Char) : List Char :=
  scopeScan (scopeSelectorList scopeId) [] css

/-- String-level wrapper for `scopeStyles`. -/
def scopeStyles (css scopeId : String) : String :=
  ⟨scopeStylesL css.data scopeId.data⟩

/-- `generateScopeId(filePath)`: the md5 digest is supplied by the
external `crypto` module, modelled as an explicit function argument
`md5hex`; the plugin keeps the first 8 hex characters behind the fixed
`data-v-` marker. -/
def generateScopeId (md5hex : String → String) (filePath : String) : String :=
  "data-v-" ++ ⟨(md5hex filePath).data.take 8⟩


/-! ### Template escaping (`escapeTemplate`) -/

/-- First pass of `escapeTemplate`: `template.replace(/\\/g, "\\\\")`. -/
def escBackslash : List Char → List Char
  | [] => []
  | c :: r => if c = '\\' then '\\' :: '\\' :: escBackslash r else c :: escBackslash r

/-- Second pass of `escapeTemplate`: escape every backtick. -/
def escBacktick : List Char → List Char
  | [] => []
  | c :: r => if c = '`' then '\\' :: '`' :: escBacktick r else c :: escBacktick r

/-- Third pass of `escapeTemplate`: `replace(/\$\{/g, "\\${")`; the
regex engine replaces the occurrences left to right without overlap. -/
def escDollarBrace : List Char → List Char
  | [] => []
  | [c] => [c]
  | c :: d :: r =>
    if c = '$' ∧ d = '\x7b' then '\\' :: '$' :: '\x7b' :: escDollarBrace r
    else c :: escDollarBrace (d :: r)

/-- `escapeTemplate(template)` of the source: the three replacements in
source order. -/
def escapeTemplate (template : List Char) : List Char :=
  escDollarBrace (escBacktick (escBackslash template))

/-- How the host language reads the contents of a backtick template
literal: a backslash escapes the following character, an unescaped
backtick terminates the literal (`none`), and an unescaped `${` starts
host-language interpolation (`none`).  On success the cooked character
sequence is returned.  (`escapeTemplate` only ever emits a backslash
before one of `\`, `` ` ``, `$`, for which the cooked value is the
character itself.) -/
def templateScan : List Char → Option (List Char)
  | [] => some []
  | [c] => if c = '\\' ∨ c = '`' then none else some [c]
  | c :: d :: r =>
    if c = '\\' then (templateScan r).map (d :: ·)
    else if c = '`' then none
    else if c = '$' ∧ d = '\x7b' then none
    else (templateScan (d :: r)).map (c :: ·)

/-! ### Component name derivation -/

/-- Match a literal regex fragment, returning the remaining input. -/
def matchLit (pat s : List Char) : Option (List Char) :=
  if pat.isPrefixOf s then some (s.drop pat.length) else none

/-- `\s*`: greedily skip whitespace (no backtracking is ever needed
because every following fragment starts with a non-whitespace token). -/
def skipWs (s : List Char) : List Char :=
  s.dropWhile isJsWs

/-- Match one literal character. -/
def matchChar (c : Char) : List Char → Option (List Char)
  | [] => none
  | d :: r => if d = c then some r else none

/-- `\s+`: at least one whitespace character, then greedily the rest. -/
def matchWs1 : List Char → Option (List Char)
  | [] => none
  | c :: r => if isJsWs c then some (r.dropWhile isJsWs) else none

/-- The regex class `['"`]` used for quotes in the name patterns. -/
def isQuote (c : Char) : Bool :=
  c = '\'' || c = '"' || c = '`'

/-- A greedy non-empty character-class capture (`[...]+`): the maximal
run of allowed characters, which must be non-empty.  Backtracking to a
shorter run can never help because the following token is excluded from
the class. -/
def greedyCapture (allowed : Char → Bool) (s : List Char) :
    Option (List Char × List Char) :=
  let cap := s.takeWhile allowed
  if cap.isEmpty then none else some (cap, s.drop cap.length)

/-- The word-character class `\w`. -/
def isWordChar (c : Char) : Bool :=
  c.isAlpha || c.isDigit || c = '_'

/-- Try the first name pattern
`@customElement\s*\(\s*\{\s*name:\s*['"`]([^'"`]+)['"`]/`
at the start of the input. -/
def tryElemName1 (s : List Char) : Option (List Char) := do
  let s ← matchLit ("@customElement".data) s
  let s ← matchChar '(' (skipWs s)
  let s ← matchChar '{' (skipWs s)
  let s ← matchLit ("name:".data) (skipWs s)
  let s := skipWs s
  match s with
  | c :: r =>
    if isQuote c then
      let (cap, rest) ← greedyCapture (fun d => !(isQuote d)) r
      match rest with
      | d :: _ => if isQuote d then some cap else none
      | [] => none
    else none
  | [] => none

/-- Try the second name pattern
`@customElement\s*\(\s*['"`]([^'"`]+)['"`]/` at the start
of the input. -/
def tryElemName2 (s : List Char) : Option (List Char) := do
  let s ← matchLit ("@customElement".data) s
  let s ← matchChar '(' (skipWs s)
  let s := skipWs s
  match s with
  | c :: r =>
    if isQuote c then
      let (cap, rest) ← greedyCapture (fun d => !(isQuote d)) r
      match rest with
      | d :: _ => if isQuote d then some cap else none
      | [] => none
    else none
  | [] => none

/-- Try the third name pattern
`@customElement\s*\(\s*\{\s*name:\s*`([^`]+)`/` at the
start of the input. -/
def tryElemName3 (s : List Char) : Option (List Char) := do
  let s ← matchLit ("@customElement".data) s
  let s ← matchChar '(' (skipWs s)
  let s ← matchChar '{' (skipWs s)
  let s ← matchLit ("name:".data) (skipWs s)
  let s ← matchChar '`' (skipWs s)
  let (cap, rest) ← greedyCapture (fun d => d ≠ '`') s
  match rest with
  | '`' :: _ => some cap
  | _ => none

/-- Leftmost-match search: try the pattern at every position from the
left, exactly as `String.prototype.match` does. -/
def searchPat (f : List Char → Option (List Char)) : List Char → Option (List Char)
  | [] => f []
  | c :: t =>
    match f (c :: t) with
    | some r => some r
    | none => searchPat f t

/-- `extractElementName(script)`: the three patterns are tried in source
order and the first captured group is trimmed. -/
def extractElementName (script : List Char) : Option (List Char) :=
  match searchPat tryElemName1 script with
  | some m => some (jsTrim m)
  | none =>
    match searchPat tryElemName2 script with
    | some m => some (jsTrim m)
    | none => (searchPat tryElemName3 script).map jsTrim

/-- Try `/export\s+default\s+class\s+(\w+)/` at the start of the input. -/
def tryClass1 (s : List Char) : Option (List Char) := do
  let s ← matchLit ("export".data) s
  let s ← matchWs1 s
  let s ← matchLit ("default".data) s
  let s ← matchWs1 s
  let s ← matchLit ("class".data) s
  let s ← matchWs1 s
  let (cap, _) ← greedyCapture isWordChar s
  pure cap

/-- Try `/class\s+(\w+)[^{]*{/` at the start of the input: the capture
is the maximal word run, and the match succeeds exactly when an opening
brace occurs somewhere after it. -/
def tryClass2 (s : List Char) : Option (List Char) := do
  let s ← matchLit ("class".data) s
  let s ← matchWs1 s
  let (cap, rest) ← greedyCapture isWordChar s
  if rest.contains '{' then pure cap else none

/-- Try `/export\s+class\s+(\w+)/` at the start of the input. -/
def tryClass3 (s : List Char) : Option (List Char) := do
  let s ← matchLit ("export".data) s
  let s ← matchWs1 s
  let s ← matchLit ("class".data) s
  let s ← matchWs1 s
  let (cap, _) ← greedyCapture isWordChar s
  pure cap

/-- The first class-name pattern that matches anywhere in the script,
in source order. -/
def classNameOpt (script : List Char) : Option (List Char) :=
  match searchPat tryClass1 script with
  | some m => some m
  | none =>
    match searchPat tryClass2 script with
    | some m => some m
    | none => searchPat tryClass3 script

/-- `extractClassName(script)`: the fixed fallback identifier is
`AnonymousComponent`. -/
def extractClassName (script : List Char) : List Char :=
  (classNameOpt script).getD ("AnonymousComponent".data)

/-- First pass of `kebabCase`:
`str.replace(/([a-z0-9])([A-Z])/g, "$1-$2")`.  A match consumes both
characters, so scanning resumes after the pair. -/
def kebab1 : List Char → List Char
  | a :: b :: r =>
    if (a.isLower || a.isDigit) && b.isUpper then a :: '-' :: b :: kebab1 r
    else a :: kebab1 (b :: r)
  | l => l

/-- Second pass of `kebabCase`:
`replace(/([A-Z])([A-Z][a-z])/g, "$1-$2")`.  A match consumes all three
characters. -/
def kebab2 : List Char → List Char
  | a :: b :: c :: r =>
    if a.isUpper && b.isUpper && c.isLower then a :: '-' :: b :: c :: kebab2 r
    else a :: kebab2 (b :: c :: r)
  | l => l

/-- `kebabCase(str)` of the source: the two boundary passes followed by
`toLowerCase()`. -/
def kebabCase (s : List Char) : List Char :=
  (kebab2 (kebab1 s)).map Char.toLower

/-- The component-name derivation inlined in `load`: an explicit
decorator name wins, otherwise the class name is kebab-cased. -/
def deriveComponentName (classContent : List Char) : List Char :=
  match extractElementName classContent with
  | some n => n
  | none => kebabCase (extractClassName classContent)

/-! ### Import extraction and the synthesized import set -/

/-- Insertion-order deduplication, as performed by a JavaScript `Set`
built from an array: the first occurrence of each element is kept. -/
def setDedupAux {α : Type} [DecidableEq α] (seen : List α) : List α → List α
  | [] => []
  | x :: xs => if x ∈ seen then setDedupAux seen xs else x :: setDedupAux (x :: seen) xs

/-- `[...new Set(l)]`. -/
def setDedup {α : Type} [DecidableEq α] (l : List α) : List α :=
  setDedupAux [] l

/-- The loop state of `extractImportsAndContent`. -/
structure ExtractAcc where
  inMulti : Bool
  current : List Char
  imports : List (List Char)
  content : List (List Char)

/-- One iteration of the line loop of `extractImportsAndContent`. -/
def extractLine (st : ExtractAcc) (line : List Char) : ExtractAcc :=
  let trimmed := jsTrim line
  if st.inMulti then
    let cur := st.current ++ '\n' :: line
    if containsSub [';'] trimmed || containsSub ("from".data) trimmed then
      { st with inMulti := false, current := [], imports := st.imports ++ [jsTrim cur] }
    else { st with current := cur }
  else if ("import ".data).isPrefixOf trimmed then
    if !containsSub [';'] trimmed && !containsSub ("from".data) trimmed then
      { st with inMulti := true, current := line }
    else { st with imports := st.imports ++ [trimmed] }
  else { st with content := st.content ++ [line] }

/-- `extractImportsAndContent(script)`: fold the line loop over the
lines, deduplicate the imports, and join and trim the remaining lines.
A multi-line import still open when the lines run out is dropped, as in
the source. -/
def extractImportsAndContent (script : List Char) :
    List (List Char) × List Char :=
  let fin := (splitOnChar '\n' script).foldl extractLine ⟨false, [], [], []⟩
  (setDedup fin.imports, jsTrim (joinSep ['\n'] fin.content))

/-- The framework's component-declaration import line added by `load`. -/
def aureliaImport : List Char :=
  "import \x7b customElement \x7d from 'aurelia';".data

/-- The synthesized import set of `load`:
`new Set([...imports, aureliaImport])`, in insertion order. -/
def allImports (imports : List (List Char)) : List (List Char) :=
  setDedup (imports ++ [aureliaImport])

/-! ### The bounded LRU result cache -/

/-- The `LRUCache` class: a JavaScript `Map` is a list of key-value
pairs in insertion order (oldest first), with at most one entry per
key. -/
structure LRUCache (K V : Type) where
  maxSize : Nat
  entries : List (K × V)

/-- `Map.prototype.get` (value lookup only): the entry for a key. -/
def lookupEntry {K V : Type} [DecidableEq K] : List (K × V) → K → Option V
  | [], _ => none
  | e :: t, k => if e.1 = k then some e.2 else lookupEntry t k

/-- `Map.prototype.has` on the entry list. -/
def hasKeyL {K V : Type} [DecidableEq K] (l : List (K × V)) (k : K) : Bool :=
  (lookupEntry l k).isSome

/-- `Map.prototype.delete`: remove the entry for the key (a `Map` holds
at most one). -/
def mapDelete {K V : Type} [DecidableEq K] (k : K) : List (K × V) → List (K × V)
  | [] => []
  | e :: t => if e.1 = k then t else e :: mapDelete k t

/-- `Map.prototype.set`: update in place if the key exists, otherwise
append at the most-recently-inserted end. -/
def mapSet {K V : Type} [DecidableEq K] (k : K) (v : V) : List (K × V) → List (K × V)
  | [] => [(k, v)]
  | e :: t => if e.1 = k then (k, v) :: t else e :: mapSet k v t

/-- `LRUCache.prototype.get`: on a hit the entry is deleted and
re-inserted at the end (most recently used); the value and the updated
cache are returned. -/
def LRUCache.get {K V : Type} [DecidableEq K] (c : LRUCache K V) (k : K) :
    Option V × LRUCache K V :=
  match lookupEntry c.entries k with
  | some v => (some v, { c with entries := mapDelete k c.entries ++ [(k, v)] })
  | none => (none, c)

/-- `LRUCache.prototype.set`: an existing key is deleted first (then
re-appended); otherwise, at capacity, the first (least recently used)
key is deleted; the new entry is appended at the end.  When the cache is
empty `this.cache.keys().next().value` is `undefined` and the delete is
a no-op, which the `match` mirrors. -/
def LRUCache.set {K V : Type} [DecidableEq K] (c : LRUCache K V) (k : K) (v : V) :
    LRUCache K V :=
  if hasKeyL c.entries k then { c with entries := mapDelete k c.entries ++ [(k, v)] }
  else if c.maxSize ≤ c.entries.length then
    let pruned :=
      match c.entries with
      | [] => c.entries
      | e :: _ => mapDelete e.1 c.entries
    { c with entries := pruned ++ [(k, v)] }
  else { c with entries := c.entries ++ [(k, v)] }

/-- `LRUCache.prototype.has`. -/
def LRUCache.hasKey {K V : Type} [DecidableEq K] (c : LRUCache K V) (k : K) : Bool :=
  hasKeyL c.entries k

/-- `LRUCache.prototype.clear` (the map part; the module-level
`fileTimeCache` is cleared separately by `configureServer`). -/
def LRUCache.clear {K V : Type} (c : LRUCache K V) : LRUCache K V :=
  { c with entries := [] }

/-- A freshly constructed `new LRUCache(n)`. -/
def LRUCache.empty (K V : Type) (n : Nat) : LRUCache K V :=
  ⟨n, []⟩

/-- The capacity the plugin constructs its cache with:
`const cache = new LRUCache(200)`. -/
def pluginCacheCapacity : Nat := 200

/-- One externally observable cache operation. -/
inductive CacheOp (K V : Type) where
  | get (k : K) : CacheOp K V
  | set (k : K) (v : V) : CacheOp K V

/-- Apply one cache operation (discarding `get`'s returned value). -/
def applyOp {K V : Type} [DecidableEq K] (c : LRUCache K V) :
    CacheOp K V → LRUCache K V
  | .get k => (c.get k).2
  | .set k v => c.set k v

/-- Run a sequence of cache operations. -/
def runOps {K V : Type} [DecidableEq K] (c : LRUCache K V)
    (ops : List (CacheOp K V)) : LRUCache K V :=
  ops.foldl applyOp c

/-! ### Cache keys, `shouldRecompile` and the caching skeleton of `load` -/

/-- `getCacheKey(filePath, options, code, fileStats)` digests
`"path|options|code|mtime-size"` with the external crypto module's md5.
The digest is modelled as the identity on its pre-image — per spec §4.1
the derived key must change whenever any input changes — so a key is the
tuple of the inputs. -/
structure CacheKey where
  path : String
  optionsStr : String
  code : String
  mtime : Nat
  size : Nat
deriving DecidableEq

/-- Build the cache key from the inputs of `getCacheKey`. -/
def getCacheKey (filePath optionsStr code : String) (mtime size : Nat) : CacheKey :=
  ⟨filePath, optionsStr, code, mtime, size⟩

/-- The module-level mutable state read and written by `load`:
the bounded result cache and the `fileTimeCache` map from paths to
recorded modification times. -/
structure LoadState where
  cache : LRUCache CacheKey String
  fileTimeCache : List (String × Nat)

/-- The state after `configureServer` cleared both caches. -/
def clearedState : LoadState :=
  ⟨LRUCache.empty CacheKey String pluginCacheCapacity, []⟩

/-- `shouldRecompile(filePath, cacheKey)`.  The current modification
time `mtimeNow` is what `statSync` reports.  JavaScript's
`!cachedTime` also treats a recorded time of `0` as absent, hence the
`t = 0` disjunct.  The returned pair is the decision and the updated
`fileTimeCache`: note that in the missing-cache-entry branch the
function returns `true` without recording the modification time. -/
def shouldRecompile (st : LoadState) (filePath : String) (cacheKey : CacheKey)
    (mtimeNow : Nat) : Bool × List (String × Nat) :=
  if st.cache.hasKey cacheKey = false then (true, st.fileTimeCache)
  else
    match lookupEntry st.fileTimeCache filePath with
    | none => (true, mapSet filePath mtimeNow st.fileTimeCache)
    | some t =>
      if t = 0 ∨ t < mtimeNow then (true, mapSet filePath mtimeNow st.fileTimeCache)
      else (false, st.fileTimeCache)

/-- The outcome of one `load` call on a component virtual id. -/
structure LoadResult where
  output : String
  state : LoadState
  recompiled : Bool

/-- The caching skeleton of `load` on a `.au` virtual id (source lines
739–819).  `compile` abstracts the whole compilation pipeline between
`shouldRecompile` and `cache.set` — parsing, structure validation,
script analysis, synthesis and `ts.transpileModule` — as a
deterministic function of the file content (the plugin options are fixed
for the plugin instance).  `fileContent`, `mtime` and `size` are what
`readFileSync` and `statSync` report for `filePath` at call time. -/
def loadAu (compile : String → String) (optionsStr filePath fileContent : String)
    (mtime size : Nat) (st : LoadState) : LoadResult :=
  let key := getCacheKey filePath optionsStr fileContent mtime size
  let dec := shouldRecompile st filePath key mtime
  if dec.1 then
    let out := compile fileContent
    ⟨out, ⟨st.cache.set key out, dec.2⟩, true⟩
  else
    let hit := st.cache.get key
    ⟨hit.1.getD "", ⟨hit.2, dec.2⟩, false⟩

/-! ### Structure validation -/

/-- The sections selected by `validateSFCStructure`, together with the
non-fatal warnings it logs. -/
structure SFCSections (T : Type) where
  script : T
  template : T
  styles : List T
  warnings : List String

/-- `validateSFCStructure(root, filePath)`.  The HTML parser is
external; the model receives the three `querySelectorAll` result lists.
A missing script or template section throws (modelled as `Except.error`)
with a message naming the section and the file path; extra sections only
add a warning and the first tag of each kind is returned.  (In the
source the multiple-script warning is logged even when the template is
missing; warnings are only reported here on the success path, which the
claims do not distinguish.) -/
def validateSFCStructure {T : Type} (scriptTags templateTags styleTags : List T)
    (filePath : String) : Except String (SFCSections T) :=
  match scriptTags with
  | [] => .error ("Missing <script> section in " ++ filePath)
  | s :: sRest =>
    match templateTags with
    | [] => .error ("Missing <template> section in " ++ filePath)
    | t :: tRest =>
      .ok ⟨s, t, styleTags,
        (if sRest.isEmpty then []
         else ["Multiple <script> tags found in " ++ filePath ++ ", using the first one"]) ++
        (if tRest.isEmpty then []
         else ["Multiple <template> tags found in " ++ filePath ++ ", using the first one"])⟩

/-! ### Hot updates -/

/-- The observable outcome of `handleHotUpdate`. -/
structure HotUpdateResult where
  cacheEntries : List (String × String)
  fileTimeCache : List (String × Nat)
  reloaded : Bool
deriving DecidableEq

/-- `handleHotUpdate(ctx)` for a change to `file`: when the file is a
component file (`.au` suffix), every cache key that contains the path as
a substring is deleted, the path's recorded modification time is
deleted, and the host is told to reload the affected modules
(`ctx.server.reloadModule`); any other file is a no-op. -/
def handleHotUpdate (file : String) (cacheEntries : List (String × String))
    (ftc : List (String × Nat)) : HotUpdateResult :=
  if (".au".data).isSuffixOf file.data then
    ⟨cacheEntries.filter (fun e => !containsSub file.data e.1.data),
     mapDelete file ftc, true⟩
  else ⟨cacheEntries, ftc, false⟩

/-- A key is hex-shaped when all its characters are lowercase
hexadecimal digits, as every `crypto` md5 `digest("hex")` value is. -/
def isHexKey (k : String) : Bool :=
  k.data.all (fun c => c.isDigit || (c ≥ 'a' && c ≤ 'f'))

/-! ### Flat and one-level-nested CSS documents for the frame claim -/

/-- CSS documents in which braces occur only as rule-block delimiters:
a sequence of plain rules (prelude, declaration block) and at-rule
blocks (prelude, nested rules). -/
inductive Css where
  | nil : Css
  | rule (pre decl : List Char) (rest : Css) : Css
  | atblock (pre : List Char) (inner : Css) (rest : Css) : Css

/-- Render a `Css` document to its textual form. -/
def Css.render : Css → List Char
  | .nil => []
  | .rule p d r => p ++ '{' :: d ++ '}' :: Css.render r
  | .atblock p i r => p ++ '{' :: Css.render i ++ '}' :: Css.render r

/-- The output `scopeScan` produces for one prelude region followed by
`{`: characters up to and including each `@` are flushed verbatim, and
the final `@`-free segment becomes a capture whose replacement is
followed by a space and the brace. -/
def preludeOut (f : List Char → List Char) (q : List Char) : List Char :=
  if q.any (fun c => c = '@') then
    match q with
    | [] => f (dropTrailWs []) ++ [' ', '{']
    | c :: q2 => c :: preludeOut f q2
  else f (dropTrailWs q) ++ [' ', '{']

/-- The expected output of `scopeStyles` on a rendered `Css` document:
every prelude is rewritten by `preludeOut` and every declaration block
is kept verbatim, in order. -/
def Css.scoped (f : List Char → List Char) : Css → List Char
  | .nil => []
  | .rule p d r => preludeOut f p ++ d ++ '}' :: Css.scoped f r
  | .atblock p i r => preludeOut f p ++ Css.scoped f i ++ '}' :: Css.scoped f r

/-- No brace characters occur in the fragment. -/
def noBrace (l : List Char) : Bool :=
  l.all (fun c => c ≠ '{' && c ≠ '}')

/-- Preludes and declaration blocks of the document are brace-free, so
that its braces are exactly the rule-block delimiters. -/
def Css.wf : Css → Bool
  | .nil => true
  | .rule p d r => noBrace p && noBrace d && Css.wf r
  | .atblock p i r => noBrace p && Css.wf i && Css.wf r



/-- Number of occurrences of an element in a list. -/
def countOcc {α : Type} [DecidableEq α] (a : α) : List α → Nat
  | [] => 0
  | x :: xs => (if x = a then 1 else 0) + countOcc a xs

/-- Unique keys: what a JavaScript `Map` guarantees for its entry
list. -/
def keysNodup {K V : Type} (l : List (K × V)) : Prop :=
  (l.map Prod.fst).Nodup

/-! ## Theorems -/

/-! ### Lemmas about the `scopeStyles` scanner -/

theorem scopeScan_nil (f : List Char → List Char) (pending : List Char) :
    scopeScan f pending [] = pending := rfl

theorem scopeScan_open (f : List Char → List Char) (pending rest : List Char) :
    scopeScan f pending ('{' :: rest) =
      f (dropTrailWs pending) ++ ' ' :: '{' :: scopeScan f [] rest := by
  simp [scopeScan]

theorem scopeScan_flush (f : List Char → List Char) (pending rest : List Char)
    {c : Char} (h : c = '}' ∨ c = '@') :
    scopeScan f pending (c :: rest) = pending ++ c :: scopeScan f [] rest := by
  rcases h with h | h <;> subst h <;> simp [scopeScan]

theorem scopeScan_other (f : List Char → List Char) (pending rest : List Char)
    {c : Char} (h1 : c ≠ '{') (h2 : c ≠ '}') (h3 : c ≠ '@') :
    scopeScan f pending (c :: rest) = scopeScan f (pending ++ [c]) rest := by
  simp [scopeScan, h1, h2, h3]

theorem scopeScan_clean (f : List Char → List Char) (cs : List Char)
    (h : ∀ c ∈ cs, c ≠ '{' ∧ c ≠ '}' ∧ c ≠ '@') :
    ∀ pending rest, scopeScan f pending (cs ++ rest) = scopeScan f (pending ++ cs) rest := by
  induction cs with
  | nil => intro pending rest; simp
  | cons c cs ih =>
    intro pending rest
    obtain ⟨h1, h2, h3⟩ := h c (by simp)
    rw [List.cons_append, scopeScan_other f pending _ h1 h2 h3,
      ih (fun d hd => h d (by simp [hd]))]
    simp

theorem scopeScan_noOpen (f : List Char → List Char) (t : List Char)
    (h : ∀ c ∈ t, c ≠ '{') :
    ∀ pending, scopeScan f pending t = pending ++ t := by
  induction t with
  | nil => intro pending; simp [scopeScan]
  | cons c r ih =>
    intro pending
    by_cases hc : c = '}' ∨ c = '@'
    · rw [scopeScan_flush f pending r hc, ih (fun d hd => h d (by simp [hd])) []]
      simp
    · push_neg at hc
      rw [scopeScan_other f pending r (h c (by simp)) hc.1 hc.2,
        ih (fun d hd => h d (by simp [hd]))]
      simp

theorem preludeOut_noAt (f : List Char → List Char) (q : List Char)
    (h : ∀ c ∈ q, c ≠ '@') :
    preludeOut f q = f (dropTrailWs q) ++ [' ', '{'] := by
  rw [preludeOut.eq_def, if_neg]
  simp only [List.any_eq_true, decide_eq_true_eq, not_exists, not_and]
  exact fun c hc => h c hc

theorem preludeOut_atFree_append (f : List Char → List Char) (a : List Char)
    (h : ∀ c ∈ a, c ≠ '@') (b : List Char) :
    preludeOut f (a ++ '@' :: b) = a ++ '@' :: preludeOut f b := by
  induction a with
  | nil =>
    rw [List.nil_append, preludeOut.eq_def, if_pos (by simp)]
    simp
  | cons c a ih =>
    rw [List.cons_append, preludeOut.eq_def, if_pos (by simp)]
    show c :: preludeOut f (a ++ '@' :: b) = c :: a ++ '@' :: preludeOut f b
    rw [ih (fun d hd => h d (by simp [hd]))]
    simp

theorem scopeScan_prelude (f : List Char → List Char) (p : List Char)
    (hp : ∀ c ∈ p, c ≠ '{' ∧ c ≠ '}') :
    ∀ pending, (∀ c ∈ pending, c ≠ '@') → ∀ rest,
      scopeScan f pending (p ++ '{' :: rest) =
        preludeOut f (pending ++ p) ++ scopeScan f [] rest := by
  induction p with
  | nil =>
    intro pending hpend rest
    rw [List.nil_append, scopeScan_open, List.append_nil,
      preludeOut_noAt f pending hpend]
    simp
  | cons c p ih =>
    intro pending hpend rest
    obtain ⟨h1, h2⟩ := hp c (by simp)
    by_cases hc : c = '@'
    · subst hc
      rw [List.cons_append, scopeScan_flush f pending _ (Or.inr rfl),
        ih (fun d hd => hp d (by simp [hd])) [] (by simp) rest,
        preludeOut_atFree_append f pending hpend p]
      simp
    · rw [List.cons_append, scopeScan_other f pending _ h1 h2 hc,
        ih (fun d hd => hp d (by simp [hd])) (pending ++ [c])
          (by intro d hd
              rcases List.mem_append.1 hd with hd | hd
              · exact hpend d hd
              · simp at hd; simpa [hd] using hc) rest]
      simp

theorem scopeScan_decl (f : List Char → List Char) (d : List Char)
    (hd : ∀ c ∈ d, c ≠ '{' ∧ c ≠ '}') :
    ∀ pending rest,
      scopeScan f pending (d ++ '}' :: rest) =
        pending ++ d ++ '}' :: scopeScan f [] rest := by
  induction d with
  | nil =>
    intro pending rest
    rw [List.nil_append, scopeScan_flush f pending rest (Or.inl rfl)]
    simp
  | cons c d ih =>
    intro pending rest
    obtain ⟨h1, h2⟩ := hd c (by simp)
    by_cases hc : c = '@'
    · subst hc
      rw [List.cons_append, scopeScan_flush f pending _ (Or.inr rfl),
        ih (fun e he => hd e (by simp [he])) [] rest]
      simp
    · rw [List.cons_append, scopeScan_other f pending _ h1 h2 hc,
        ih (fun e he => hd e (by simp [he])) (pending ++ [c]) rest]
      simp

theorem noBrace_mem {l : List Char} (h : noBrace l = true) :
    ∀ c ∈ l, c ≠ '{' ∧ c ≠ '}' := by
  intro c hc
  have := (List.all_eq_true.1 h) c hc
  simpa [Bool.and_eq_true, decide_eq_true_eq] using this

theorem scopeScan_render (f : List Char → List Char) (c : Css)
    (hc : Css.wf c = true) :
    ∀ rest, scopeScan f [] (Css.render c ++ rest) =
      Css.scoped f c ++ scopeScan f [] rest := by
  induction c with
  | nil => intro rest; simp [Css.render, Css.scoped]
  | rule p d r ihi =>
    intro rest
    rw [Css.wf] at hc
    simp only [Bool.and_eq_true] at hc
    obtain ⟨⟨hp, hd⟩, hr⟩ := hc
    rw [Css.render, Css.scoped]
    have shape : (p ++ '{' :: d ++ '}' :: Css.render r) ++ rest =
        p ++ '{' :: (d ++ '}' :: (Css.render r ++ rest)) := by simp
    rw [shape, scopeScan_prelude f p (noBrace_mem hp) [] (by simp),
      scopeScan_decl f d (noBrace_mem hd) [] (Css.render r ++ rest),
      ihi hr rest]
    simp
  | atblock p i r ihInner ihRest =>
    intro rest
    rw [Css.wf] at hc
    simp only [Bool.and_eq_true] at hc
    obtain ⟨⟨hp, hi⟩, hr⟩ := hc
    rw [Css.render, Css.scoped]
    have shape : (p ++ '{' :: Css.render i ++ '}' :: Css.render r) ++ rest =
        p ++ '{' :: (Css.render i ++ ('}' :: (Css.render r ++ rest))) := by simp
    rw [shape, scopeScan_prelude f p (noBrace_mem hp) [] (by simp),
      ihInner hi ('}' :: (Css.render r ++ rest)),
      scopeScan_flush f [] (Css.render r ++ rest) (Or.inl rfl),
      ihRest hr rest]
    simp

/-- Claim C10: on every CSS text whose braces occur only as rule-block
delimiters (a rendered `Css` document followed by brace-free trailing
text), `scopeStyles` rewrites only the selector text preceding each `{`:
the output is `Css.scoped`, in which every declaration block of the
document reappears verbatim, in the same order, and only the preludes
are transformed (by `preludeOut`). -/
theorem C10_frame_declaration_blocks (scopeId : List Char) (c : Css)
    (t : List Char) (hc : Css.wf c = true)
    (ht : ∀ ch ∈ t, ch ≠ '{') :
    scopeStylesL (Css.render c ++ t) scopeId =
      Css.scoped (scopeSelectorList scopeId) c ++ t := by
  rw [scopeStylesL, scopeScan_render _ c hc t,
    scopeScan_noOpen _ t ht []]
  simp

/-- Witness for C10 at a concrete document: a plain rule followed by an
at-rule block with a nested rule, and trailing whitespace. -/
theorem C10_frame_declaration_blocks_witness :
    scopeStylesL
        (Css.render (Css.rule (".a".data) (" color: red ".data)
          (Css.atblock ("@media screen ".data)
            (Css.rule (" .b ".data) (" x:y ".data) Css.nil) Css.nil)) ++ " ".data)
        ("data-v-1".data) =
      Css.scoped (scopeSelectorList ("data-v-1".data))
        (Css.rule (".a".data) (" color: red ".data)
          (Css.atblock ("@media screen ".data)
            (Css.rule (" .b ".data) (" x:y ".data) Css.nil) Css.nil)) ++ " ".data :=
  C10_frame_declaration_blocks ("data-v-1".data) _ _ (by decide) (by decide)

/-! ### Claim C3: at-rules -/

/-- Claim C3 is refuted by the code: the capture class `([^{}@]*?)` of
the evolved `scopeStyles` regex excludes `@`, so a match for an at-rule
prelude starts just after the `@` and the prelude IS scoped; the
`selector.includes('@')` guard can never fire.  At the concrete input
`@media screen { .a { color: red } }` the at-rule prelude comes out
scoped (and reformatted), not unmodified. -/
theorem C3_at_rule_prelude_is_modified :
    scopeStyles "@media screen \x7b .a \x7b color: red \x7d \x7d" "data-v-abc12345" =
      "@media screen[data-v-abc12345] \x7b.a[data-v-abc12345] \x7b color: red \x7d \x7d"
    ∧ scopeStyles "@media screen \x7b .a \x7b color: red \x7d \x7d" "data-v-abc12345" ≠
      "@media screen \x7b .a \x7b color: red \x7d \x7d" :=
  ⟨by decide, by decide⟩

/-! ### List utility lemmas -/

theorem dropWhile_length_le {α : Type} (p : α → Bool) (l : List α) :
    (List.dropWhile p l).length ≤ l.length := by
  induction l with
  | nil => simp
  | cons a l ih =>
    rw [List.dropWhile_cons]
    split
    · exact Nat.le_trans ih (by simp)
    · simp

theorem dropWhile_eq_self_of_length {α : Type} (p : α → Bool) (l : List α)
    (h : (List.dropWhile p l).length = l.length) : List.dropWhile p l = l := by
  have hsplit := List.takeWhile_append_dropWhile p l
  have hlen := congrArg List.length hsplit
  rw [List.length_append, h] at hlen
  have htake : List.takeWhile p l = [] :=
    List.length_eq_zero.1 (by omega)
  calc List.dropWhile p l = List.takeWhile p l ++ List.dropWhile p l := by
        rw [htake]; simp
    _ = l := hsplit

theorem takeWhile_all_append {α : Type} (p : α → Bool) (a b : List α)
    (h : ∀ c ∈ a, p c = true) :
    List.takeWhile p (a ++ b) = a ++ List.takeWhile p b := by
  induction a with
  | nil => simp
  | cons c a ih =>
    rw [List.cons_append, List.takeWhile_cons, if_pos (h c (by simp)),
      ih (fun d hd => h d (by simp [hd]))]
    simp

theorem takeWhile_all_stop {α : Type} (p : α → Bool) (a : List α) (y : α)
    (ys : List α) (h : ∀ c ∈ a, p c = true) (hy : p y = false) :
    List.takeWhile p (a ++ y :: ys) = a := by
  rw [takeWhile_all_append p a _ h, List.takeWhile_cons, if_neg (by simp [hy])]
  simp

theorem dropTrailWs_length_le (l : List Char) :
    (dropTrailWs l).length ≤ l.length := by
  rw [dropTrailWs, List.length_reverse]
  calc (l.reverse.dropWhile isJsWs).length ≤ l.reverse.length :=
        dropWhile_length_le isJsWs l.reverse
    _ = l.length := List.length_reverse l

theorem dropTrailWs_eq_self_append {b : List Char} (hb : dropTrailWs b = b)
    (hne : b ≠ []) (x : List Char) : dropTrailWs (x ++ b) = x ++ b := by
  have h1 : List.dropWhile isJsWs b.reverse = b.reverse := by
    have := congrArg List.reverse hb
    rwa [dropTrailWs, List.reverse_reverse] at this
  obtain ⟨c, t, hct⟩ : ∃ c t, b.reverse = c :: t := by
    cases hrev : b.reverse with
    | nil => exact absurd (by simpa using congrArg List.reverse hrev) hne
    | cons c t => exact ⟨c, t, rfl⟩
  have hc : isJsWs c = false := by
    by_contra hcc
    rw [hct, List.dropWhile_cons, if_pos (by simpa using hcc)] at h1
    have := congrArg List.length h1
    have hle := dropWhile_length_le isJsWs t
    simp at this
    omega
  have hb2 : b = t.reverse ++ [c] := by
    have := congrArg List.reverse hct
    simpa using this
  rw [dropTrailWs, List.reverse_append, hct, List.cons_append,
    List.dropWhile_cons, if_neg (by simp [hc])]
  rw [List.reverse_cons, List.reverse_append, List.reverse_reverse, hb2]
  simp

theorem jsTrim_fix {l : List Char} (h : jsTrim l = l) :
    List.dropWhile isJsWs l = l ∧ dropTrailWs l = l := by
  have h1 : (List.dropWhile isJsWs l).length = l.length := by
    have hlow : l.length ≤ (List.dropWhile isJsWs l).length := by
      have := congrArg List.length h
      rw [jsTrim] at this
      have := dropTrailWs_length_le (List.dropWhile isJsWs l)
      omega
    have := dropWhile_length_le isJsWs l
    omega
  have hdrop : List.dropWhile isJsWs l = l := dropWhile_eq_self_of_length _ _ h1
  refine ⟨hdrop, ?_⟩
  have := h
  rwa [jsTrim, hdrop] at this

/-! ### `splitOnChar` lemmas -/

theorem splitOnChar_ne_nil (sep : Char) (l : List Char) :
    splitOnChar sep l ≠ [] := by
  cases l with
  | nil => simp [splitOnChar]
  | cons c r =>
    rw [splitOnChar]
    split
    · simp
    · split <;> simp

theorem splitOnChar_none (sep : Char) (l : List Char) (h : ∀ c ∈ l, c ≠ sep) :
    splitOnChar sep l = [l] := by
  induction l with
  | nil => simp [splitOnChar]
  | cons c r ih =>
    rw [splitOnChar, if_neg (h c (by simp)), ih (fun d hd => h d (by simp [hd]))]

theorem splitOnChar_append (sep : Char) (a b : List Char)
    (h : ∀ c ∈ a, c ≠ sep) :
    splitOnChar sep (a ++ sep :: b) = a :: splitOnChar sep b := by
  induction a with
  | nil => simp [splitOnChar]
  | cons c a ih =>
    rw [List.cons_append, splitOnChar, if_neg (h c (by simp)),
      ih (fun d hd => h d (by simp [hd]))]

/-! ### Prefix and substring lemmas -/

theorem isPrefixOf_append_self (p x : List Char) :
    p.isPrefixOf (p ++ x) = true := by
  induction p with
  | nil => simp [List.isPrefixOf]
  | cons c p ih => simp [List.isPrefixOf, ih]

theorem containsSub_append_self (p x : List Char) :
    containsSub p (p ++ x) = true := by
  cases p with
  | nil =>
    cases x with
    | nil => simp [containsSub, List.isEmpty]
    | cons c r => simp [containsSub, List.isPrefixOf]
  | cons c p =>
    rw [List.cons_append, containsSub]
    have := isPrefixOf_append_self (c :: p) x
    rw [List.cons_append] at this
    simp [this]

theorem replaceFirst_append_self (c : Char) (p rep x : List Char) :
    replaceFirst (c :: p) rep ((c :: p) ++ x) = rep ++ x := by
  rw [List.cons_append, replaceFirst]
  have hpre : (c :: p).isPrefixOf (c :: (p ++ x)) = true := by
    have := isPrefixOf_append_self (c :: p) x
    rwa [List.cons_append] at this
  rw [if_pos hpre]
  have hdrop : (c :: (p ++ x)).drop (c :: p).length = x := by
    have := List.drop_left (c :: p) x
    rwa [List.cons_append] at this
  rw [hdrop]

/-! ### `globalReplace` on a single wrapper -/

theorem globalReplaceAux_wrap (fuel : Nat) (X : List Char) (hne : X ≠ [])
    (hX : ∀ c ∈ X, c ≠ ')') :
    globalReplaceAux (fuel + 1) (':' :: ("global(".data ++ (X ++ [')']))) = X := by
  have hfold : (':' :: ("global(".data ++ (X ++ [')'])) : List Char) =
      ":global(".data ++ (X ++ [')']) := rfl
  have hdrop8 : (':' :: ("global(".data ++ (X ++ [')']))).drop 8 = X ++ [')'] := by
    rw [hfold]
    have h8 : (8 : Nat) = (":global(".data).length := rfl
    rw [h8, List.drop_left]
  have htake : (X ++ [')']).takeWhile (fun d => decide (d ≠ ')')) = X := by
    refine takeWhile_all_stop _ X ')' [] ?_ (by simp)
    intro c hc
    simpa using hX c hc
  have hdropX : (X ++ [')']).drop X.length = [')'] := List.drop_left X [')']
  rw [globalReplaceAux, if_pos (by rw [hfold]; exact isPrefixOf_append_self _ _)]
  simp only [hdrop8, htake]
  rw [if_neg (by simpa [List.isEmpty_iff] using hne), hdropX]
  simp [globalReplaceAux]

theorem globalReplace_wrap (X : List Char) (hne : X ≠ [])
    (hX : ∀ c ∈ X, c ≠ ')') :
    globalReplace (":global(".data ++ (X ++ [')'])) = X := by
  have hform : (":global(".data ++ (X ++ [')']) : List Char) =
      ':' :: ("global(".data ++ (X ++ [')'])) := rfl
  have hlen : (":global(".data ++ (X ++ [')'])).length = (X.length + 8) + 1 := by
    simp [List.length_append]
  rw [globalReplace, hlen, hform]
  exact globalReplaceAux_wrap (X.length + 8) X hne hX

/-! ### Per-selector behaviour of `scopeStyles` -/

theorem scopeOne_plain (sid s : List Char) (h1 : s ≠ [])
    (h2 : containsSub (":global(".data) s = false)
    (h3 : (":host".data).isPrefixOf s = false)
    (h4 : jsTrim s ∉ globalSelectors)
    (h5 : s.contains '%' = false)
    (h6 : digitsPercent (jsTrim s) = false)
    (h7 : s ≠ "from".data) (h8 : s ≠ "to".data) :
    scopeOneSelector sid s = s ++ '[' :: sid ++ [']'] := by
  have h5m : '%' ∉ s := by simpa using h5
  rw [scopeOneSelector, if_neg (by simp [List.isEmpty_iff, h1]),
    if_neg (by simp [h2]), if_neg (by simp [h3]), if_neg h4,
    if_neg (by simp [h5m, h6, h7, h8])]

theorem scopeOne_global (sid X : List Char) (hne : X ≠ [])
    (hX : ∀ c ∈ X, c ≠ ')') :
    scopeOneSelector sid (":global(".data ++ (X ++ [')'])) = X := by
  have hc : ((":global(".data ++ (X ++ [')'])) : List Char) =
      ':' :: ("global(".data ++ (X ++ [')'])) := rfl
  rw [scopeOneSelector, if_neg (by rw [hc]; simp),
    if_pos (containsSub_append_self _ _)]
  exact globalReplace_wrap X hne hX

theorem scopeOne_host (sid arg : List Char)
    (hg : containsSub (":global(".data) ((":host".data) ++ arg) = false) :
    scopeOneSelector sid ((":host".data) ++ arg) =
      '[' :: (sid ++ (']' :: arg)) := by
  have hc : ((":host".data ++ arg) : List Char) = ':' :: ("host".data ++ arg) := rfl
  rw [scopeOneSelector, if_neg (by rw [hc]; simp),
    if_neg (by simp only [Bool.not_eq_true]; exact hg),
    if_pos (isPrefixOf_append_self _ _)]
  rw [show ((":host".data : List Char)) = ':' :: "host".data from rfl,
    replaceFirst_append_self ':' ("host".data) ('[' :: sid ++ [']']) arg]
  simp

theorem scopeStyles_comma_rule (sid A B D : List Char)
    (hA1 : jsTrim A = A) (_hA2 : A ≠ [])
    (hAc : ∀ c ∈ A, c ≠ '{' ∧ c ≠ '}' ∧ c ≠ '@' ∧ c ≠ ',')
    (hB1 : jsTrim B = B) (hB2 : B ≠ [])
    (hBc : ∀ c ∈ B, c ≠ '{' ∧ c ≠ '}' ∧ c ≠ '@' ∧ c ≠ ',')
    (hD : ∀ c ∈ D, c ≠ '{' ∧ c ≠ '}') :
    scopeStylesL (A ++ ',' :: B ++ '{' :: D ++ ['}']) sid =
      scopeOneSelector sid A ++ ',' :: ' ' :: scopeOneSelector sid B ++
        ' ' :: '{' :: D ++ ['}'] := by
  have hpre : ∀ c ∈ A ++ ',' :: B, c ≠ '{' ∧ c ≠ '}' := by
    intro c hcm
    rcases List.mem_append.1 hcm with h | h
    · exact ⟨(hAc c h).1, (hAc c h).2.1⟩
    · rcases List.mem_cons.1 h with h | h
      · subst h; exact ⟨by decide, by decide⟩
      · exact ⟨(hBc c h).1, (hBc c h).2.1⟩
  have hat : ∀ c ∈ ([] : List Char) ++ (A ++ ',' :: B), c ≠ '@' := by
    intro c hcm
    rw [List.nil_append] at hcm
    rcases List.mem_append.1 hcm with h | h
    · exact (hAc c h).2.2.1
    · rcases List.mem_cons.1 h with h | h
      · subst h; decide
      · exact (hBc c h).2.2.1
  have hBd := (jsTrim_fix hB1).2
  have hdt : dropTrailWs ([] ++ (A ++ ',' :: B)) = A ++ ',' :: B := by
    rw [List.nil_append,
      show A ++ ',' :: B = (A ++ [',']) ++ B from by simp,
      dropTrailWs_eq_self_append hBd hB2]
  have hsel : scopeSelectorList sid (A ++ ',' :: B) =
      scopeOneSelector sid A ++ ',' :: ' ' :: scopeOneSelector sid B := by
    rw [scopeSelectorList,
      splitOnChar_append ',' A B (fun c hcm => (hAc c hcm).2.2.2),
      splitOnChar_none ',' B (fun c hcm => (hBc c hcm).2.2.2)]
    simp [joinSep, hA1, hB1]
  rw [scopeStylesL,
    show A ++ ',' :: B ++ '{' :: D ++ ['}'] =
      (A ++ ',' :: B) ++ '{' :: (D ++ ['}']) from by simp,
    scopeScan_prelude _ (A ++ ',' :: B) hpre [] (by simp) (D ++ ['}']),
    scopeScan_decl _ D hD [] [], scopeScan_nil,
    preludeOut_noAt _ _ hat, hdt, hsel]
  simp

/-- Claim C2: for every scope id, `scopeStyles` rewrites each
comma-separated selector independently and rejoins with a comma and a
space; a plain selector gets the attribute selector appended directly
with no separating space; a `:global(X)` wrapper is removed leaving `X`
unscoped; a selector beginning with `:host` has `:host` replaced by the
attribute selector, any host argument following it directly; `html`,
`body`, `*`, `::before`, `::after` and the keyframe tokens (`N%`,
`from`, `to`) pass through unchanged; and the scope id derived for the
same file path twice is the same token. -/
theorem C2_selector_scoping (sid : List Char) :
    (∀ s, s ≠ [] → containsSub (":global(".data) s = false →
      (":host".data).isPrefixOf s = false → jsTrim s ∉ globalSelectors →
      s.contains '%' = false → digitsPercent (jsTrim s) = false →
      s ≠ "from".data → s ≠ "to".data →
      scopeOneSelector sid s = s ++ '[' :: sid ++ [']'])
    ∧ (∀ X, X ≠ [] → (∀ c ∈ X, c ≠ ')') →
      scopeOneSelector sid (":global(".data ++ (X ++ [')'])) = X)
    ∧ (∀ arg, containsSub (":global(".data) ((":host".data) ++ arg) = false →
      scopeOneSelector sid ((":host".data) ++ arg) = '[' :: (sid ++ (']' :: arg)))
    ∧ (scopeOneSelector sid ("html".data) = "html".data ∧
       scopeOneSelector sid ("body".data) = "body".data ∧
       scopeOneSelector sid ("*".data) = "*".data ∧
       scopeOneSelector sid ("::before".data) = "::before".data ∧
       scopeOneSelector sid ("::after".data) = "::after".data ∧
       scopeOneSelector sid ("from".data) = "from".data ∧
       scopeOneSelector sid ("to".data) = "to".data ∧
       scopeOneSelector sid ("0%".data) = "0%".data ∧
       scopeOneSelector sid ("50%".data) = "50%".data ∧
       scopeOneSelector sid ("100%".data) = "100%".data)
    ∧ (∀ A B D, jsTrim A = A → A ≠ [] →
      (∀ c ∈ A, c ≠ '{' ∧ c ≠ '}' ∧ c ≠ '@' ∧ c ≠ ',') →
      jsTrim B = B → B ≠ [] →
      (∀ c ∈ B, c ≠ '{' ∧ c ≠ '}' ∧ c ≠ '@' ∧ c ≠ ',') →
      (∀ c ∈ D, c ≠ '{' ∧ c ≠ '}') →
      scopeStylesL (A ++ ',' :: B ++ '{' :: D ++ ['}']) sid =
        scopeOneSelector sid A ++ ',' :: ' ' :: scopeOneSelector sid B ++
          ' ' :: '{' :: D ++ ['}'])
    ∧ (∀ (md5hex : String → String) (p : String),
      generateScopeId md5hex p = generateScopeId md5hex p) := by
  refine ⟨scopeOne_plain sid, scopeOne_global sid, scopeOne_host sid,
    ⟨rfl, rfl, rfl, rfl, rfl, rfl, rfl, rfl, rfl, rfl⟩,
    fun A B D hA1 hA2 hAc hB1 hB2 hBc hD =>
      scopeStyles_comma_rule sid A B D hA1 hA2 hAc hB1 hB2 hBc hD,
    fun _ _ => rfl⟩

/-- Witness for C2 at concrete selectors and a concrete scope id,
matching the spec's scoping round-trip examples. -/
theorem C2_selector_scoping_witness :
    scopeOneSelector ("data-v-abc12345".data) (".test".data) =
      ".test".data ++ '[' :: "data-v-abc12345".data ++ [']']
    ∧ scopeOneSelector ("data-v-abc12345".data)
        (":global(".data ++ (".g".data ++ [')'])) = ".g".data
    ∧ scopeOneSelector ("data-v-abc12345".data)
        ((":host".data) ++ "(.active)".data) =
      '[' :: ("data-v-abc12345".data ++ (']' :: "(.active)".data))
    ∧ scopeOneSelector ("data-v-abc12345".data) ("html".data) = "html".data
    ∧ scopeStylesL (".a".data ++ ',' :: ".b".data ++ '{' :: " x:y ".data ++ ['}'])
        ("data-v-abc12345".data) =
      scopeOneSelector ("data-v-abc12345".data) (".a".data) ++ ',' :: ' ' ::
        scopeOneSelector ("data-v-abc12345".data) (".b".data) ++
        ' ' :: '{' :: " x:y ".data ++ ['}'] :=
  ⟨(C2_selector_scoping _).1 (".test".data) (by decide) (by decide) (by decide)
      (by decide) (by decide) (by decide) (by decide) (by decide),
   (C2_selector_scoping _).2.1 (".g".data) (by decide) (by decide),
   (C2_selector_scoping _).2.2.1 ("(.active)".data) (by decide),
   (C2_selector_scoping _).2.2.2.1.1,
   (C2_selector_scoping _).2.2.2.2.1 (".a".data) (".b".data) (" x:y ".data)
      (by decide) (by decide) (by decide) (by decide) (by decide) (by decide)
      (by decide)⟩

/-! ### Template-escaping lemmas -/

theorem eD_pair {c d : Char} (r : List Char) (h : ¬(c = '$' ∧ d = '{')) :
    escDollarBrace (c :: d :: r) = c :: escDollarBrace (d :: r) := by
  rw [escDollarBrace, if_neg h]

theorem eD_db (r : List Char) :
    escDollarBrace ('$' :: '{' :: r) = '\\' :: '$' :: '{' :: escDollarBrace r := by
  rw [escDollarBrace, if_pos ⟨rfl, rfl⟩]

theorem eD_cons_ne (c : Char) (x : List Char) (h : c ≠ '$') :
    escDollarBrace (c :: x) = c :: escDollarBrace x := by
  cases x with
  | nil => rfl
  | cons d x' => exact eD_pair x' (by simp [h])

theorem eD_dollar_nohead (x : List Char) (h : x.head? ≠ some '{') :
    escDollarBrace ('$' :: x) = '$' :: escDollarBrace x := by
  cases x with
  | nil => rfl
  | cons d x' =>
    refine eD_pair x' ?_
    rintro ⟨-, hd⟩
    exact h (by simp [hd])

theorem eB_head {x : List Char} (h : (escBackslash x).head? = some '{') :
    x.head? = some '{' := by
  cases x with
  | nil => simp [escBackslash] at h
  | cons c r =>
    rw [escBackslash] at h
    by_cases hc : c = '\\'
    · rw [if_pos hc] at h; simp at h
    · rw [if_neg hc] at h; simpa using h

theorem eT_head {x : List Char} (h : (escBacktick x).head? = some '{') :
    x.head? = some '{' := by
  cases x with
  | nil => simp [escBacktick] at h
  | cons c r =>
    rw [escBacktick] at h
    by_cases hc : c = '`'
    · rw [if_pos hc] at h; simp at h
    · rw [if_neg hc] at h; simpa using h

theorem eD_head {x : List Char} (h : (escDollarBrace x).head? = some '{') :
    x.head? = some '{' := by
  match x with
  | [] => simp [escDollarBrace] at h
  | [c] => simpa [escDollarBrace] using h
  | c :: d :: r =>
    by_cases hc : c = '$' ∧ d = '{'
    · rw [escDollarBrace, if_pos hc] at h
      simp at h
    · rw [eD_pair r hc] at h
      simpa using h

theorem tScan_pair_bs (d : Char) (r : List Char) :
    templateScan ('\\' :: d :: r) = (templateScan r).map (d :: ·) := by
  rw [templateScan, if_pos rfl]

theorem tScan_cons_plain (c : Char) (z : List Char) (h1 : c ≠ '\\')
    (h2 : c ≠ '`') (h3 : c ≠ '$') :
    templateScan (c :: z) = (templateScan z).map (c :: ·) := by
  cases z with
  | nil =>
    simp only [templateScan]
    rw [if_neg (by simp [h1, h2])]
    simp
  | cons d z' =>
    rw [templateScan, if_neg h1, if_neg h2, if_neg (by simp [h3])]

theorem tScan_dollar_nohead (z : List Char) (h : z.head? ≠ some '{') :
    templateScan ('$' :: z) = (templateScan z).map ('$' :: ·) := by
  cases z with
  | nil =>
    simp only [templateScan]
    rw [if_neg (by decide)]
    simp
  | cons d z' =>
    rw [templateScan, if_neg (by decide), if_neg (by decide),
      if_neg (by rintro ⟨-, hd⟩; exact h (by simp [hd]))]

/-- Claim C5: escaping a template for embedding in a backtick literal
escapes every backslash, backtick and `${` sequence: reading the escaped
text back with the host language's template-literal scanner never
terminates the literal early and never enters interpolation, and
recovers exactly the original template text. -/
theorem C5_escape_template_roundtrip :
    ∀ t : List Char, templateScan (escapeTemplate t) = some t := by
  have main : ∀ n (t : List Char), t.length ≤ n →
      templateScan (escDollarBrace (escBacktick (escBackslash t))) = some t := by
    intro n
    induction n with
    | zero =>
      intro t ht
      have h0 : t = [] := List.length_eq_zero.1 (Nat.le_zero.1 ht)
      subst h0; rfl
    | succ n ih =>
      intro t ht
      cases t with
      | nil => rfl
      | cons c r =>
        have hr : r.length ≤ n := by simp at ht; omega
        by_cases hbs : c = '\\'
        · subst hbs
          rw [escBackslash, if_pos rfl, escBacktick, if_neg (by decide),
            escBacktick, if_neg (by decide),
            eD_cons_ne '\\' _ (by decide), eD_cons_ne '\\' _ (by decide),
            tScan_pair_bs, ih r hr]
          rfl
        · by_cases hbt : c = '`'
          · subst hbt
            rw [escBackslash, if_neg (by decide), escBacktick, if_pos rfl,
              eD_cons_ne '\\' _ (by decide), eD_cons_ne '`' _ (by decide),
              tScan_pair_bs, ih r hr]
            rfl
          · by_cases hd : c = '$'
            · subst hd
              cases r with
              | nil => decide
              | cons d r2 =>
                have hr2 : r2.length ≤ n - 1 := by simp at ht; omega
                have hdr2 : (d :: r2).length ≤ n := by simp at ht ⊢; omega
                by_cases hbrace : d = '{'
                · subst hbrace
                  have hr2n : r2.length ≤ n := by simp at ht; omega
                  rw [escBackslash, if_neg (by decide), escBackslash,
                    if_neg (by decide), escBacktick, if_neg (by decide),
                    escBacktick, if_neg (by decide), eD_db, tScan_pair_bs,
                    tScan_cons_plain '{' _ (by decide) (by decide) (by decide),
                    ih r2 hr2n]
                  rfl
                · rw [escBackslash, if_neg (by decide), escBacktick,
                    if_neg (by decide)]
                  have hw : (escBacktick (escBackslash (d :: r2))).head? ≠
                      some '{' := by
                    intro hcon
                    exact hbrace (by simpa using eB_head (eT_head hcon))
                  have hw2 : (escDollarBrace (escBacktick
                      (escBackslash (d :: r2)))).head? ≠ some '{' :=
                    fun hcon => hw (eD_head hcon)
                  rw [eD_dollar_nohead _ hw, tScan_dollar_nohead _ hw2,
                    ih (d :: r2) hdr2]
                  rfl
            · rw [escBackslash, if_neg hbs, escBacktick, if_neg hbt,
                eD_cons_ne c _ hd, tScan_cons_plain c _ hbs hbt hd, ih r hr]
              rfl
  intro t
  rw [escapeTemplate]
  exact main t.length t le_rfl

/-! ### Regex-matcher lemmas for name extraction -/

theorem matchLit_append (p x : List Char) : matchLit p (p ++ x) = some x := by
  rw [matchLit, if_pos (isPrefixOf_append_self p x), List.drop_left]

theorem skipWs_cons (c : Char) (r : List Char) (h : isJsWs c = false) :
    skipWs (c :: r) = c :: r := by
  simp [skipWs, List.dropWhile_cons, h]

theorem skipWs_ws (c : Char) (r : List Char) (h : isJsWs c = true) :
    skipWs (c :: r) = skipWs r := by
  simp [skipWs, List.dropWhile_cons, h]

theorem matchChar_cons (c : Char) (r : List Char) : matchChar c (c :: r) = some r := by
  simp [matchChar]

theorem greedyCapture_split (allowed : Char → Bool) (nn : List Char) (q : Char)
    (rest : List Char) (hne : nn ≠ []) (hall : ∀ c ∈ nn, allowed c = true)
    (hq : allowed q = false) :
    greedyCapture allowed (nn ++ q :: rest) = some (nn, q :: rest) := by
  simp only [greedyCapture, takeWhile_all_stop allowed nn q rest hall hq]
  rw [if_neg (by simpa [List.isEmpty_iff] using hne), List.drop_left]

theorem tryElemName1_quoted (q1 q2 : Char) (n rest : List Char)
    (hq1 : isQuote q1 = true) (hq2 : isQuote q2 = true) (hne : n ≠ [])
    (hn : ∀ c ∈ n, isQuote c = false) :
    tryElemName1 (("@customElement(\x7b name: ".data) ++ q1 :: (n ++ q2 :: rest)) =
      some n := by
  have e1 : (("@customElement(\x7b name: ".data) ++ q1 :: (n ++ q2 :: rest) : List Char)
      = "@customElement".data ++ ("(\x7b name: ".data ++ q1 :: (n ++ q2 :: rest)) := rfl
  rw [tryElemName1, e1, matchLit_append]
  simp only [Option.bind_eq_bind, Option.some_bind]
  rw [show ("(\x7b name: ".data ++ q1 :: (n ++ q2 :: rest) : List Char)
      = '(' :: ("\x7b name: ".data ++ q1 :: (n ++ q2 :: rest)) from rfl,
    skipWs_cons _ _ (by decide), matchChar_cons]
  simp only [Option.bind_eq_bind, Option.some_bind]
  rw [show ("\x7b name: ".data ++ q1 :: (n ++ q2 :: rest) : List Char)
      = '\x7b' :: (" name: ".data ++ q1 :: (n ++ q2 :: rest)) from rfl,
    skipWs_cons _ _ (by decide), matchChar_cons]
  simp only [Option.bind_eq_bind, Option.some_bind]
  rw [show (" name: ".data ++ q1 :: (n ++ q2 :: rest) : List Char)
      = ' ' :: ("name: ".data ++ q1 :: (n ++ q2 :: rest)) from rfl,
    skipWs_ws _ _ (by decide),
    show ("name: ".data ++ q1 :: (n ++ q2 :: rest) : List Char)
      = 'n' :: ("ame:".data ++ (' ' :: (q1 :: (n ++ q2 :: rest)))) from rfl,
    skipWs_cons _ _ (by decide),
    show ('n' :: ("ame:".data ++ (' ' :: (q1 :: (n ++ q2 :: rest)))) : List Char)
      = "name:".data ++ (' ' :: (q1 :: (n ++ q2 :: rest))) from rfl,
    matchLit_append]
  simp only [Option.bind_eq_bind, Option.some_bind]
  have hq1ws : isJsWs q1 = false := by
    have h3 : q1 = '\'' ∨ q1 = '"' ∨ q1 = '`' := by
      simpa [isQuote, or_assoc] using hq1
    rcases h3 with h | h | h <;> subst h <;> decide
  rw [skipWs_ws _ _ (by decide), skipWs_cons _ _ hq1ws]
  simp only [if_pos hq1]
  rw [greedyCapture_split _ n q2 rest hne
      (fun c hc => by simp [hn c hc]) (by simp [hq2])]
  simp only [Option.bind_eq_bind, Option.some_bind, if_pos hq2]

theorem searchPat_of_head {f : List Char → Option (List Char)} {s r : List Char}
    (hs : s ≠ []) (h : f s = some r) : searchPat f s = some r := by
  cases s with
  | nil => exact absurd rfl hs
  | cons c t =>
    rw [searchPat, h]

theorem extractElementName_quoted (q1 q2 : Char) (n rest : List Char)
    (hq1 : isQuote q1 = true) (hq2 : isQuote q2 = true) (hne : n ≠ [])
    (hn : ∀ c ∈ n, isQuote c = false) :
    extractElementName (("@customElement(\x7b name: ".data) ++ q1 :: (n ++ q2 :: rest)) =
      some (jsTrim n) := by
  have hs : searchPat tryElemName1
      (("@customElement(\x7b name: ".data) ++ q1 :: (n ++ q2 :: rest)) = some n :=
    searchPat_of_head (by simp) (tryElemName1_quoted q1 q2 n rest hq1 hq2 hne hn)
  rw [extractElementName, hs]

/-- Claim C6: the component name is derived with the documented
precedence: an explicit decorator name (in any of the three quote
forms) wins; otherwise the declared class identifier is kebab-cased
(hyphens at lower/digit-to-upper and upper-to-Title boundaries, then
lowercased, e.g. `MyAwesomeComponent` to `my-awesome-component`); and
when no class identifier is found the fixed fallback identifier
`AnonymousComponent` is converted the same way. -/
theorem C6_component_name_derivation :
    (∀ b nm, extractElementName b = some nm → deriveComponentName b = nm)
    ∧ (∀ (q1 q2 : Char) (n rest : List Char), isQuote q1 = true →
        isQuote q2 = true → n ≠ [] → (∀ c ∈ n, isQuote c = false) →
        extractElementName
          (("@customElement(\x7b name: ".data) ++ q1 :: (n ++ q2 :: rest)) =
          some (jsTrim n))
    ∧ (∀ b, extractElementName b = none →
        deriveComponentName b = kebabCase (extractClassName b))
    ∧ (∀ b, extractElementName b = none → classNameOpt b = none →
        deriveComponentName b = "anonymous-component".data)
    ∧ kebabCase ("MyAwesomeComponent".data) = "my-awesome-component".data
    ∧ kebabCase ("HTMLParser".data) = "html-parser".data
    ∧ kebabCase ("v2Engine".data) = "v2-engine".data
    ∧ deriveComponentName ("export default class MyAwesomeComponent \x7b\x7d".data) =
        "my-awesome-component".data
    ∧ deriveComponentName
        ("@customElement(\x27my-custom-element\x27)\nexport default class MyComponent \x7b\x7d".data) =
        "my-custom-element".data := by
  refine ⟨?_, extractElementName_quoted, ?_, ?_, by decide, by decide, by decide,
    by decide, by decide⟩
  · intro b nm h
    rw [deriveComponentName, h]
  · intro b h
    rw [deriveComponentName, h]
  · intro b h1 h2
    rw [deriveComponentName, h1, extractClassName, h2]
    decide

/-- Witness for C6 at concrete scripts: an explicit decorator name, an
object-style quoted name, class-name inference and the fallback. -/
theorem C6_component_name_derivation_witness :
    deriveComponentName ("@customElement(\x27x-el\x27)".data) = "x-el".data
    ∧ extractElementName
        (("@customElement(\x7b name: ".data) ++ '\'' :: ("my-el".data ++ '\'' :: " \x7d)".data)) =
        some (jsTrim ("my-el".data))
    ∧ deriveComponentName ("export default class Foo \x7b\x7d".data) =
        kebabCase (extractClassName ("export default class Foo \x7b\x7d".data))
    ∧ deriveComponentName ("const x = 1;".data) = "anonymous-component".data :=
  ⟨C6_component_name_derivation.1 _ _ (by decide),
   C6_component_name_derivation.2.1 '\'' '\'' ("my-el".data) (" \x7d)".data)
     (by decide) (by decide) (by decide) (by decide),
   C6_component_name_derivation.2.2.1 _ (by decide),
   C6_component_name_derivation.2.2.2.1 _ (by decide) (by decide)⟩

/-! ### `Set`-deduplication lemmas and claim C7 -/

theorem setDedupAux_count_in {α : Type} [DecidableEq α] (a : α) :
    ∀ (l seen : List α), a ∈ seen → countOcc a (setDedupAux seen l) = 0 := by
  intro l
  induction l with
  | nil => intro seen _; simp [setDedupAux, countOcc]
  | cons x xs ih =>
    intro seen ha
    rw [setDedupAux]
    by_cases hx : x ∈ seen
    · rw [if_pos hx]; exact ih seen ha
    · rw [if_neg hx]
      have hax : x ≠ a := fun he => hx (he ▸ ha)
      rw [countOcc, ih (x :: seen) (by simp [ha])]
      simp [hax]

theorem setDedupAux_count_notin {α : Type} [DecidableEq α] (a : α) :
    ∀ (l seen : List α), a ∉ seen →
      countOcc a (setDedupAux seen l) = if a ∈ l then 1 else 0 := by
  intro l
  induction l with
  | nil => intro seen _; simp [setDedupAux, countOcc]
  | cons x xs ih =>
    intro seen ha
    rw [setDedupAux]
    by_cases hx : x ∈ seen
    · rw [if_pos hx, ih seen ha]
      have hax : a ≠ x := fun he => ha (he ▸ hx)
      simp [hax]
    · rw [if_neg hx]
      by_cases hax : a = x
      · subst hax
        rw [countOcc, setDedupAux_count_in a xs (a :: seen) (by simp)]
        simp
      · rw [countOcc, ih (x :: seen) (by simp [ha, hax])]
        simp [hax, Ne.symm hax]

/-- Claim C7: for every input script, the synthesized import set of the
module contains the framework's component-declaration import exactly
once — it is added when absent, and the `Set` union never duplicates
it. -/
theorem C7_framework_import_exactly_once (script : List Char) :
    countOcc aureliaImport (allImports (extractImportsAndContent script).1) = 1 := by
  rw [allImports, setDedup,
    setDedupAux_count_notin aureliaImport _ [] (by simp)]
  rw [if_pos (by simp)]

/-! ### LRU cache lemmas -/

theorem mapDelete_length {K V : Type} [DecidableEq K] {l : List (K × V)} {k : K}
    (h : hasKeyL l k = true) : (mapDelete k l).length + 1 = l.length := by
  induction l with
  | nil => simp [hasKeyL, lookupEntry] at h
  | cons e t ih =>
    rw [mapDelete]
    by_cases he : e.1 = k
    · rw [if_pos he]; simp
    · rw [if_neg he]
      have ht : hasKeyL t k = true := by
        rw [hasKeyL, lookupEntry, if_neg he] at h
        exact h
      simp [ih ht]

theorem lookupEntry_eq_none_of_not_mem {K V : Type} [DecidableEq K]
    {l : List (K × V)} {k : K} (h : k ∉ l.map Prod.fst) :
    lookupEntry l k = none := by
  induction l with
  | nil => rfl
  | cons e t ih =>
    simp only [List.map_cons, List.mem_cons, not_or] at h
    rw [lookupEntry, if_neg (fun he => h.1 he.symm)]
    exact ih h.2

theorem lookupEntry_mapDelete_ne {K V : Type} [DecidableEq K]
    {l : List (K × V)} {k k' : K} (h : k' ≠ k) :
    lookupEntry (mapDelete k l) k' = lookupEntry l k' := by
  induction l with
  | nil => rfl
  | cons e t ih =>
    rw [mapDelete]
    by_cases he : e.1 = k
    · rw [if_pos he, lookupEntry, if_neg (fun hc => h (hc.symm.trans he))]
    · rw [if_neg he, lookupEntry, lookupEntry]
      by_cases he' : e.1 = k'
      · rw [if_pos he', if_pos he']
      · rw [if_neg he', if_neg he', ih]

theorem lookupEntry_append_none {K V : Type} [DecidableEq K]
    {l₁ : List (K × V)} (l₂ : List (K × V)) {k : K}
    (h : lookupEntry l₁ k = none) :
    lookupEntry (l₁ ++ l₂) k = lookupEntry l₂ k := by
  induction l₁ with
  | nil => simp
  | cons e t ih =>
    rw [lookupEntry] at h
    by_cases he : e.1 = k
    · rw [if_pos he] at h; simp at h
    · rw [if_neg he] at h
      rw [List.cons_append, lookupEntry, if_neg he]
      exact ih h

theorem lookupEntry_append_some {K V : Type} [DecidableEq K]
    {l₁ : List (K × V)} (l₂ : List (K × V)) {k : K} {v : V}
    (h : lookupEntry l₁ k = some v) :
    lookupEntry (l₁ ++ l₂) k = some v := by
  induction l₁ with
  | nil => simp [lookupEntry] at h
  | cons e t ih =>
    rw [List.cons_append, lookupEntry]
    rw [lookupEntry] at h
    by_cases he : e.1 = k
    · rw [if_pos he] at h ⊢; exact h
    · rw [if_neg he] at h ⊢; exact ih h

theorem lookupEntry_mapDelete_none {K V : Type} [DecidableEq K]
    {l : List (K × V)} {k : K} (j : K) (h : lookupEntry l k = none) :
    lookupEntry (mapDelete j l) k = none := by
  induction l with
  | nil => rfl
  | cons e t ih =>
    rw [lookupEntry] at h
    by_cases he : e.1 = k
    · rw [if_pos he] at h; simp at h
    · rw [if_neg he] at h
      rw [mapDelete]
      by_cases hj : e.1 = j
      · rw [if_pos hj]; exact h
      · rw [if_neg hj, lookupEntry, if_neg he]; exact ih h

theorem lookupEntry_mapDelete_self {K V : Type} [DecidableEq K]
    {l : List (K × V)} {k : K} (h : keysNodup l) :
    lookupEntry (mapDelete k l) k = none := by
  induction l with
  | nil => rfl
  | cons e t ih =>
    rw [keysNodup, List.map_cons, List.nodup_cons] at h
    rw [mapDelete]
    by_cases he : e.1 = k
    · rw [if_pos he]
      exact lookupEntry_eq_none_of_not_mem (he ▸ h.1)
    · rw [if_neg he, lookupEntry, if_neg he]
      exact ih h.2

theorem hasKeyL_false_lookup {K V : Type} [DecidableEq K] {l : List (K × V)}
    {k : K} (h : hasKeyL l k = false) : lookupEntry l k = none := by
  rw [hasKeyL] at h
  exact Option.not_isSome_iff_eq_none.1 (by simp [h])

theorem set_lookup_self {K V : Type} [DecidableEq K] (c : LRUCache K V)
    (k : K) (v : V) (h : keysNodup c.entries) :
    lookupEntry ((c.set k v).entries) k = some v := by
  rw [LRUCache.set]
  by_cases hk : hasKeyL c.entries k
  · rw [if_pos hk]
    rw [lookupEntry_append_none _ (lookupEntry_mapDelete_self h)]
    simp [lookupEntry]
  · rw [if_neg hk]
    have hnone := hasKeyL_false_lookup (by simpa using hk)
    by_cases hcap : c.maxSize ≤ c.entries.length
    · rw [if_pos hcap]
      cases hent : c.entries with
      | nil =>
        simp only [hent]
        simp [lookupEntry]
      | cons e t =>
        simp only [hent]
        rw [lookupEntry_append_none _
          (lookupEntry_mapDelete_none e.1 (hent ▸ hnone))]
        simp [lookupEntry]
    · rw [if_neg hcap, lookupEntry_append_none _ hnone]
      simp [lookupEntry]

theorem applyOp_maxSize {K V : Type} [DecidableEq K] (c : LRUCache K V)
    (op : CacheOp K V) : (applyOp c op).maxSize = c.maxSize := by
  cases op with
  | get k =>
    rw [applyOp, LRUCache.get]
    cases lookupEntry c.entries k <;> rfl
  | set k v =>
    rw [applyOp, LRUCache.set]
    by_cases h1 : hasKeyL c.entries k
    · rw [if_pos h1]
    · rw [if_neg h1]
      by_cases h2 : c.maxSize ≤ c.entries.length
      · rw [if_pos h2]
      · rw [if_neg h2]

theorem applyOp_length {K V : Type} [DecidableEq K] (c : LRUCache K V)
    (op : CacheOp K V) (hc : 1 ≤ c.maxSize)
    (hlen : c.entries.length ≤ c.maxSize) :
    (applyOp c op).entries.length ≤ c.maxSize := by
  cases op with
  | get k =>
    rw [applyOp, LRUCache.get]
    cases hl : lookupEntry c.entries k with
    | none => exact hlen
    | some v =>
      have hk : hasKeyL c.entries k = true := by simp [hasKeyL, hl]
      have := mapDelete_length hk
      simp only [List.length_append, List.length_cons, List.length_nil]
      omega
  | set k v =>
    rw [applyOp, LRUCache.set]
    by_cases h1 : hasKeyL c.entries k
    · rw [if_pos h1]
      have := mapDelete_length h1
      simp only [List.length_append, List.length_cons, List.length_nil]
      omega
    · rw [if_neg h1]
      by_cases h2 : c.maxSize ≤ c.entries.length
      · rw [if_pos h2]
        cases hent : c.entries with
        | nil => rw [hent] at h2; simp at h2; omega
        | cons e t =>
          simp only [List.length_append, List.length_cons, List.length_nil]
          rw [mapDelete, if_pos rfl]
          rw [hent] at hlen
          simp at hlen
          omega
      · rw [if_neg h2]
        simp only [List.length_append, List.length_cons, List.length_nil]
        omega

theorem runOps_length {K V : Type} [DecidableEq K] (ops : List (CacheOp K V)) :
    ∀ (c : LRUCache K V), 1 ≤ c.maxSize → c.entries.length ≤ c.maxSize →
      (runOps c ops).entries.length ≤ c.maxSize := by
  induction ops with
  | nil => intro c _ hlen; exact hlen
  | cons op ops ih =>
    intro c hc hlen
    rw [runOps, List.foldl_cons]
    have hm := applyOp_maxSize c op
    have := ih (applyOp c op) (by omega) (by rw [hm]; exact applyOp_length c op hc hlen)
    rw [hm] at this
    exact this

theorem hasKeyL_set_other {K V : Type} [DecidableEq K] {l : List (K × V)}
    {k k' : K} (v : V) (h : k' ≠ k) :
    hasKeyL (mapDelete k l ++ [(k, v)]) k' = hasKeyL l k' := by
  rw [hasKeyL, hasKeyL]
  cases hl : lookupEntry (mapDelete k l) k' with
  | some w =>
    rw [lookupEntry_append_some _ hl]
    rw [lookupEntry_mapDelete_ne h] at hl
    rw [hl]
  | none =>
    rw [lookupEntry_append_none _ hl]
    rw [lookupEntry_mapDelete_ne h] at hl
    rw [hl, lookupEntry, if_neg (fun hc => h hc.symm), lookupEntry]

/-- Claim C8: the bounded LRU result cache (capacity fixed at
construction, 200 in the plugin): the entry count never exceeds the
capacity over any sequence of `get`/`set` operations from the empty
cache; `get` on a hit promotes the entry to most recently used; `set`
on an existing key refreshes its recency without evicting anything;
`set` of a new key at capacity evicts the least recently used (first)
entry. -/
theorem C8_lru_cache_behaviour :
    (∀ (K V : Type) [DecidableEq K] (cap : Nat) (ops : List (CacheOp K V)),
      1 ≤ cap → (runOps (LRUCache.empty K V cap) ops).entries.length ≤ cap)
    ∧ (∀ (K V : Type) [DecidableEq K] (c : LRUCache K V) (k : K) (v : V),
      lookupEntry c.entries k = some v →
        c.get k = (some v, { c with entries := mapDelete k c.entries ++ [(k, v)] })
        ∧ ((c.get k).2.entries).getLast? = some (k, v)
        ∧ (c.get k).2.entries.length = c.entries.length)
    ∧ (∀ (K V : Type) [DecidableEq K] (c : LRUCache K V) (k : K) (v : V),
      hasKeyL c.entries k = true →
        (c.set k v).entries = mapDelete k c.entries ++ [(k, v)]
        ∧ (c.set k v).entries.length = c.entries.length
        ∧ ∀ k', k' ≠ k → hasKeyL ((c.set k v).entries) k' = hasKeyL c.entries k')
    ∧ (∀ (K V : Type) [DecidableEq K] (c : LRUCache K V) (k : K) (v : V),
      hasKeyL c.entries k = false → c.entries.length = c.maxSize →
      1 ≤ c.maxSize → (c.set k v).entries = c.entries.tail ++ [(k, v)])
    ∧ pluginCacheCapacity = 200 := by
  refine ⟨?_, ?_, ?_, ?_, rfl⟩
  · intro K V _ cap ops hcap
    exact runOps_length ops (LRUCache.empty K V cap) hcap (by simp [LRUCache.empty])
  · intro K V _ c k v h
    have hget : c.get k = (some v, { c with entries := mapDelete k c.entries ++ [(k, v)] }) := by
      rw [LRUCache.get, h]
    refine ⟨hget, ?_, ?_⟩
    · rw [hget]
      exact List.getLast?_concat _
    · rw [hget]
      have hk : hasKeyL c.entries k = true := by simp [hasKeyL, h]
      have := mapDelete_length hk
      simp only [List.length_append, List.length_cons, List.length_nil]
      omega
  · intro K V _ c k v h
    have hset : (c.set k v).entries = mapDelete k c.entries ++ [(k, v)] := by
      rw [LRUCache.set, if_pos h]
    refine ⟨hset, ?_, ?_⟩
    · rw [hset]
      have := mapDelete_length h
      simp only [List.length_append, List.length_cons, List.length_nil]
      omega
    · intro k' hk'
      rw [hset]
      exact hasKeyL_set_other v hk'
  · intro K V _ c k v h1 h2 h3
    rw [LRUCache.set, if_neg (by simp [h1]), if_pos (by omega)]
    cases hent : c.entries with
    | nil => rw [hent] at h2; simp at h2; omega
    | cons e t =>
      simp only [hent]
      rw [mapDelete, if_pos rfl]
      simp

/-- Witness for C8 on a concrete `Nat`-keyed cache of capacity 2 and
the plugin's capacity of 200. -/
theorem C8_lru_cache_behaviour_witness :
    (1 ≤ 200 ∧
      (runOps (LRUCache.empty Nat Nat 200)
        [CacheOp.set 1 10, CacheOp.set 2 20, CacheOp.get 1]).entries.length ≤ 200)
    ∧ (lookupEntry ((⟨2, [(1, 10), (2, 20)]⟩ : LRUCache Nat Nat).entries) 1 = some 10 ∧
      ((⟨2, [(1, 10), (2, 20)]⟩ : LRUCache Nat Nat).get 1).2.entries.getLast? = some (1, 10))
    ∧ (hasKeyL ((⟨2, [(1, 10), (2, 20)]⟩ : LRUCache Nat Nat).entries) 1 = true ∧
      ((⟨2, [(1, 10), (2, 20)]⟩ : LRUCache Nat Nat).set 1 11).entries.length =
        ((⟨2, [(1, 10), (2, 20)]⟩ : LRUCache Nat Nat).entries).length)
    ∧ (hasKeyL ((⟨2, [(1, 10), (2, 20)]⟩ : LRUCache Nat Nat).entries) 3 = false ∧
      ((⟨2, [(1, 10), (2, 20)]⟩ : LRUCache Nat Nat).set 3 30).entries =
        ((⟨2, [(1, 10), (2, 20)]⟩ : LRUCache Nat Nat).entries).tail ++ [(3, 30)]) :=
  ⟨⟨by decide, C8_lru_cache_behaviour.1 Nat Nat 200 _ (by decide)⟩,
   ⟨by decide, (C8_lru_cache_behaviour.2.1 Nat Nat _ 1 10 (by decide)).2.1⟩,
   ⟨by decide, (C8_lru_cache_behaviour.2.2.1 Nat Nat _ 1 11 (by decide)).2.1⟩,
   ⟨by decide, C8_lru_cache_behaviour.2.2.2.1 Nat Nat _ 3 30 (by decide) (by decide)
      (by decide)⟩⟩

/-! ### `shouldRecompile` and the caching skeleton of `load` -/

theorem shouldRecompile_no_entry {st : LoadState} {path : String} {key : CacheKey}
    {m : Nat} (h : st.cache.hasKey key = false) :
    shouldRecompile st path key m = (true, st.fileTimeCache) := by
  rw [shouldRecompile, if_pos h]

theorem shouldRecompile_no_time {st : LoadState} {path : String} {key : CacheKey}
    {m : Nat} (h1 : st.cache.hasKey key = true)
    (h2 : lookupEntry st.fileTimeCache path = none) :
    shouldRecompile st path key m = (true, mapSet path m st.fileTimeCache) := by
  rw [shouldRecompile, if_neg (by simp [h1])]
  simp only [h2]

theorem shouldRecompile_stale {st : LoadState} {path : String} {key : CacheKey}
    {m t : Nat} (h1 : st.cache.hasKey key = true)
    (h2 : lookupEntry st.fileTimeCache path = some t) (h3 : t = 0 ∨ t < m) :
    shouldRecompile st path key m = (true, mapSet path m st.fileTimeCache) := by
  rw [shouldRecompile, if_neg (by simp [h1])]
  simp only [h2]
  rw [if_pos h3]

theorem shouldRecompile_fresh {st : LoadState} {path : String} {key : CacheKey}
    {m t : Nat} (h1 : st.cache.hasKey key = true)
    (h2 : lookupEntry st.fileTimeCache path = some t) (h3 : ¬(t = 0 ∨ t < m)) :
    shouldRecompile st path key m = (false, st.fileTimeCache) := by
  rw [shouldRecompile, if_neg (by simp [h1])]
  simp only [h2]
  rw [if_neg h3]

theorem loadAu_output_of_lookup (compile : String → String)
    (opts path content : String) (m sz : Nat) (st : LoadState)
    (h : lookupEntry st.cache.entries (getCacheKey path opts content m sz) =
      some (compile content)) :
    (loadAu compile opts path content m sz st).output = compile content := by
  by_cases hdec : (shouldRecompile st path (getCacheKey path opts content m sz) m).1 = true
  · simp [loadAu, hdec]
  · simp [loadAu, hdec, LRUCache.get, h]

theorem loadAu_idempotent_output (compile : String → String)
    (opts path content : String) (m sz : Nat) (st : LoadState)
    (hnodup : keysNodup st.cache.entries) :
    (loadAu compile opts path content m sz
      (loadAu compile opts path content m sz st).state).output =
      (loadAu compile opts path content m sz st).output := by
  by_cases hdec : (shouldRecompile st path (getCacheKey path opts content m sz) m).1 = true
  · have hr1 : loadAu compile opts path content m sz st =
        ⟨compile content,
         ⟨st.cache.set (getCacheKey path opts content m sz) (compile content),
          (shouldRecompile st path (getCacheKey path opts content m sz) m).2⟩,
         true⟩ := by
      simp [loadAu, hdec]
    rw [hr1]
    exact loadAu_output_of_lookup compile opts path content m sz _
      (set_lookup_self st.cache _ _ hnodup)
  · have hk : st.cache.hasKey (getCacheKey path opts content m sz) = true := by
      by_contra hk
      rw [shouldRecompile_no_entry (by simpa using hk)] at hdec
      simp at hdec
    obtain ⟨v, hv⟩ : ∃ v, lookupEntry st.cache.entries
        (getCacheKey path opts content m sz) = some v := by
      rw [LRUCache.hasKey, hasKeyL] at hk
      exact Option.isSome_iff_exists.1 hk
    cases hftc : lookupEntry st.fileTimeCache path with
    | none =>
      rw [shouldRecompile_no_time hk hftc] at hdec
      simp at hdec
    | some t =>
      by_cases ht : t = 0 ∨ t < m
      · rw [shouldRecompile_stale hk hftc ht] at hdec
        simp at hdec
      · have hsr := shouldRecompile_fresh hk hftc ht
        have hr1 : loadAu compile opts path content m sz st =
            ⟨v, ⟨(st.cache.get (getCacheKey path opts content m sz)).2,
              st.fileTimeCache⟩, false⟩ := by
          simp [loadAu, hsr, LRUCache.get, hv]
        have hprom : lookupEntry
            ((st.cache.get (getCacheKey path opts content m sz)).2).entries
            (getCacheKey path opts content m sz) = some v := by
          rw [LRUCache.get, hv]
          rw [lookupEntry_append_none _ (lookupEntry_mapDelete_self hnodup)]
          simp [lookupEntry]
        have h2k : (⟨(st.cache.get (getCacheKey path opts content m sz)).2,
            st.fileTimeCache⟩ : LoadState).cache.hasKey
            (getCacheKey path opts content m sz) = true := by
          simp [LRUCache.hasKey, hasKeyL, hprom]
        have hsr2 := @shouldRecompile_fresh
          ⟨(st.cache.get (getCacheKey path opts content m sz)).2,
            st.fileTimeCache⟩ path (getCacheKey path opts content m sz) m t
          h2k hftc ht
        rw [hr1]
        generalize (st.cache.get (getCacheKey path opts content m sz)).2 = c2
          at hprom hsr2 ⊢
        simp only [loadAu, hsr2]
        simp [LRUCache.get, hprom]

theorem loadAu_cleared_chain (compile : String → String)
    (opts path content : String) (m m' sz : Nat) (h0 : 0 < m) (hm : m < m') :
    (loadAu compile opts path content m sz clearedState).recompiled = true
    ∧ (loadAu compile opts path content m sz
        (loadAu compile opts path content m sz clearedState).state).recompiled = true
    ∧ (loadAu compile opts path content m sz
        (loadAu compile opts path content m sz
          (loadAu compile opts path content m sz clearedState).state).state).recompiled
        = false
    ∧ (loadAu compile opts path content m sz
        (loadAu compile opts path content m sz
          (loadAu compile opts path content m sz clearedState).state).state).output
        = compile content
    ∧ (loadAu compile opts path content m sz clearedState).output = compile content
    ∧ (loadAu compile opts path content m' sz
        (loadAu compile opts path content m sz
          (loadAu compile opts path content m sz
            (loadAu compile opts path content m sz
              clearedState).state).state).state).recompiled = true := by
  have hsr1 := @shouldRecompile_no_entry ⟨⟨200, []⟩, []⟩ path
    (getCacheKey path opts content m sz) m
    (by simp [LRUCache.hasKey, hasKeyL, lookupEntry])
  have e1 : loadAu compile opts path content m sz clearedState =
      ⟨compile content,
       ⟨⟨200, [(getCacheKey path opts content m sz, compile content)]⟩, []⟩,
       true⟩ := by
    rw [show clearedState = ⟨⟨200, []⟩, []⟩ from rfl]
    simp [loadAu, hsr1, LRUCache.set, hasKeyL, lookupEntry]
  have hk2 : (⟨⟨200,
      [(getCacheKey path opts content m sz, compile content)]⟩, []⟩ :
        LoadState).cache.hasKey (getCacheKey path opts content m sz) = true := by
    simp [LRUCache.hasKey, hasKeyL, lookupEntry]
  have hsr2 := @shouldRecompile_no_time
    ⟨⟨200, [(getCacheKey path opts content m sz, compile content)]⟩, []⟩ path
    (getCacheKey path opts content m sz) m hk2 rfl
  have e2 : loadAu compile opts path content m sz
      (⟨⟨200,
        [(getCacheKey path opts content m sz, compile content)]⟩, []⟩ : LoadState) =
      ⟨compile content,
       ⟨⟨200, [(getCacheKey path opts content m sz, compile content)]⟩,
        [(path, m)]⟩, true⟩ := by
    simp [loadAu, hsr2, LRUCache.set, hasKeyL, lookupEntry, mapDelete, mapSet]
  have hk3 : (⟨⟨200,
      [(getCacheKey path opts content m sz, compile content)]⟩, [(path, m)]⟩ :
        LoadState).cache.hasKey (getCacheKey path opts content m sz) = true := by
    simp [LRUCache.hasKey, hasKeyL, lookupEntry]
  have hftc3 : lookupEntry ([(path, m)] : List (String × Nat)) path = some m := by
    simp [lookupEntry]
  have ht3 : ¬(m = 0 ∨ m < m) := by omega
  have hsr3 := @shouldRecompile_fresh
    ⟨⟨200, [(getCacheKey path opts content m sz, compile content)]⟩, [(path, m)]⟩
    path (getCacheKey path opts content m sz) m m hk3 hftc3 ht3
  have e3 : loadAu compile opts path content m sz
      (⟨⟨200,
        [(getCacheKey path opts content m sz, compile content)]⟩,
       [(path, m)]⟩ : LoadState) =
      ⟨compile content,
       ⟨⟨200, [(getCacheKey path opts content m sz, compile content)]⟩,
        [(path, m)]⟩, false⟩ := by
    simp [loadAu, hsr3, LRUCache.get, lookupEntry, mapDelete]
  have hne : ¬(getCacheKey path opts content m sz =
      getCacheKey path opts content m' sz) := by
    simp [getCacheKey]
    omega
  have hk4 : (⟨⟨200,
      [(getCacheKey path opts content m sz, compile content)]⟩, [(path, m)]⟩ :
        LoadState).cache.hasKey (getCacheKey path opts content m' sz) = false := by
    simp [LRUCache.hasKey, hasKeyL, lookupEntry, hne]
  have hsr4 := @shouldRecompile_no_entry
    ⟨⟨200, [(getCacheKey path opts content m sz, compile content)]⟩, [(path, m)]⟩
    path (getCacheKey path opts content m' sz) m' hk4
  refine ⟨by rw [e1], by rw [e1, e2], by rw [e1, e2, e3], by rw [e1, e2, e3],
    by rw [e1], ?_⟩
  rw [e1, e2, e3]
  simp [loadAu, hsr4]

/-- Claim C1, amended.  For an unchanged file, two consecutive `load`
calls return identical output text, but the second call may still
re-invoke the compilation pipeline: `shouldRecompile` returns true when
no cache entry exists for the key — recording nothing in that branch —
or when no modification time (or a zero time) is recorded for the path,
or when the file's modification time has advanced past the recorded
time, recording the new time only in the latter cases.  Consequently,
starting from a cleared cache the first and second loads both
recompile; only from the third consecutive call on is the cached output
returned without recompiling; and advancing the modification time
forces the next load to recompute. -/
theorem C1_cache_recompilation_behaviour :
    (∀ (compile : String → String) (opts path content : String) (m sz : Nat)
        (st : LoadState), keysNodup st.cache.entries →
      (loadAu compile opts path content m sz
        (loadAu compile opts path content m sz st).state).output =
        (loadAu compile opts path content m sz st).output)
    ∧ (∀ (st : LoadState) (path : String) (key : CacheKey) (m : Nat),
        st.cache.hasKey key = false →
        shouldRecompile st path key m = (true, st.fileTimeCache))
    ∧ (∀ (st : LoadState) (path : String) (key : CacheKey) (m : Nat),
        st.cache.hasKey key = true → lookupEntry st.fileTimeCache path = none →
        shouldRecompile st path key m = (true, mapSet path m st.fileTimeCache))
    ∧ (∀ (st : LoadState) (path : String) (key : CacheKey) (m t : Nat),
        st.cache.hasKey key = true →
        lookupEntry st.fileTimeCache path = some t → (t = 0 ∨ t < m) →
        shouldRecompile st path key m = (true, mapSet path m st.fileTimeCache))
    ∧ (∀ (st : LoadState) (path : String) (key : CacheKey) (m t : Nat),
        st.cache.hasKey key = true →
        lookupEntry st.fileTimeCache path = some t → ¬(t = 0 ∨ t < m) →
        shouldRecompile st path key m = (false, st.fileTimeCache))
    ∧ (∀ (compile : String → String) (opts path content : String)
        (m m' sz : Nat), 0 < m → m < m' →
      (loadAu compile opts path content m sz clearedState).recompiled = true
      ∧ (loadAu compile opts path content m sz
          (loadAu compile opts path content m sz clearedState).state).recompiled
          = true
      ∧ (loadAu compile opts path content m sz
          (loadAu compile opts path content m sz
            (loadAu compile opts path content m sz
              clearedState).state).state).recompiled = false
      ∧ (loadAu compile opts path content m sz
          (loadAu compile opts path content m sz
            (loadAu compile opts path content m sz
              clearedState).state).state).output = compile content
      ∧ (loadAu compile opts path content m sz clearedState).output =
          compile content
      ∧ (loadAu compile opts path content m' sz
          (loadAu compile opts path content m sz
            (loadAu compile opts path content m sz
              (loadAu compile opts path content m sz
                clearedState).state).state).state).recompiled = true) :=
  ⟨loadAu_idempotent_output,
   fun _ _ _ _ h => shouldRecompile_no_entry h,
   fun _ _ _ _ h1 h2 => shouldRecompile_no_time h1 h2,
   fun _ _ _ _ _ h1 h2 h3 => shouldRecompile_stale h1 h2 h3,
   fun _ _ _ _ _ h1 h2 h3 => shouldRecompile_fresh h1 h2 h3,
   fun compile opts path content m m' sz h0 hm =>
     loadAu_cleared_chain compile opts path content m m' sz h0 hm⟩

/-- Counterexample to claim C1 as stated: starting from the cleared
cache, the second `load` call on the unchanged file `/a/b.au` DOES
re-invoke the compilation pipeline (`recompiled = true`), because the
first call decided to recompile without recording the file's
modification time: `shouldRecompile` on the empty cache returns `true`
while leaving the recorded-time map empty. -/
theorem C1_second_load_recompiles_counterexample :
    (loadAu (fun s => "out:" ++ s) "" "/a/b.au" "x" 5 1
      (loadAu (fun s => "out:" ++ s) "" "/a/b.au" "x" 5 1
        clearedState).state).recompiled = true
    ∧ (shouldRecompile clearedState "/a/b.au"
        (getCacheKey "/a/b.au" "" "x" 5 1) 5).1 = true
    ∧ (shouldRecompile clearedState "/a/b.au"
        (getCacheKey "/a/b.au" "" "x" 5 1) 5).2 = [] :=
  ⟨by decide, by decide, by decide⟩

/-- Witness for the amended C1 at a concrete file and clock. -/
theorem C1_cache_recompilation_behaviour_witness :
    keysNodup (clearedState.cache.entries) ∧
    ((loadAu (fun s => "out:" ++ s) "" "/a/b.au" "x" 5 1
        (loadAu (fun s => "out:" ++ s) "" "/a/b.au" "x" 5 1
          clearedState).state).output =
      (loadAu (fun s => "out:" ++ s) "" "/a/b.au" "x" 5 1 clearedState).output)
    ∧ shouldRecompile clearedState "/a/b.au" (getCacheKey "/a/b.au" "" "x" 5 1) 5 =
        (true, clearedState.fileTimeCache)
    ∧ ((0 : Nat) < 5 ∧ (5 : Nat) < 6 ∧
      (loadAu (fun s => "out:" ++ s) "" "/a/b.au" "x" 5 1
        (loadAu (fun s => "out:" ++ s) "" "/a/b.au" "x" 5 1
          (loadAu (fun s => "out:" ++ s) "" "/a/b.au" "x" 5 1
            clearedState).state).state).recompiled = false) :=
  ⟨by simp [keysNodup, clearedState, LRUCache.empty],
   C1_cache_recompilation_behaviour.1 _ "" "/a/b.au" "x" 5 1 clearedState
     (by simp [keysNodup, clearedState, LRUCache.empty]),
   C1_cache_recompilation_behaviour.2.1 clearedState "/a/b.au"
     (getCacheKey "/a/b.au" "" "x" 5 1) 5 (by decide),
   by decide, by decide,
   (C1_cache_recompilation_behaviour.2.2.2.2.2 (fun s => "out:" ++ s) "" "/a/b.au"
     "x" 5 6 1 (by decide) (by decide)).2.2.1⟩

/-! ### Claim C4: structure validation -/

/-- Claim C4: a document with zero script sections or zero template
sections fails with a structure error naming the missing section and
the file path; with at least one of each no error is raised, the first
section of each kind is used, and extra sections only add a
warning. -/
theorem C4_missing_section_errors :
    (∀ (T : Type) (templateTags styleTags : List T) (p : String),
      validateSFCStructure ([] : List T) templateTags styleTags p =
        .error ("Missing <script> section in " ++ p))
    ∧ (∀ (T : Type) (s : T) (ss styleTags : List T) (p : String),
      validateSFCStructure (s :: ss) ([] : List T) styleTags p =
        .error ("Missing <template> section in " ++ p))
    ∧ (∀ (T : Type) (s t : T) (ss ts styleTags : List T) (p : String),
      ∃ w, validateSFCStructure (s :: ss) (t :: ts) styleTags p =
        .ok ⟨s, t, styleTags, w⟩)
    ∧ (∀ (T : Type) (s1 s2 t : T) (ss ts styleTags : List T) (p : String),
      ∃ w, validateSFCStructure (s1 :: s2 :: ss) (t :: ts) styleTags p =
        .ok ⟨s1, t, styleTags, w⟩ ∧
        ("Multiple <script> tags found in " ++ p ++ ", using the first one") ∈ w) := by
  refine ⟨fun T tt st p => rfl, fun T s ss st p => rfl,
    fun T s t ss ts st p => ⟨_, rfl⟩, fun T s1 s2 t ss ts st p => ⟨_, rfl, ?_⟩⟩
  simp [validateSFCStructure]

/-! ### Claim C9: hot updates -/

theorem containsSub_subset {pat s : List Char} (h : containsSub pat s = true) :
    ∀ c ∈ pat, c ∈ s := by
  induction s with
  | nil =>
    intro c hc
    rw [containsSub] at h
    rw [List.isEmpty_iff.1 h] at hc
    simp at hc
  | cons a r ih =>
    rw [containsSub, Bool.or_eq_true] at h
    rcases h with h | h
    · intro c hc
      obtain ⟨t, ht⟩ := List.isPrefixOf_iff_prefix.1 h
      rw [← ht]
      exact List.mem_append_left t hc
    · intro c hc
      exact List.mem_cons_of_mem a (ih h c hc)

theorem suffix_au_has_dot {file : List Char}
    (h : (".au".data).isSuffixOf file = true) : '.' ∈ file := by
  obtain ⟨pre, hpre⟩ := List.isSuffixOf_iff_suffix.1 h
  rw [← hpre]
  exact List.mem_append_right pre (by decide)

/-- Every hex-shaped cache key survives a component-file hot update:
the purge condition `key.includes(file)` can never hold because the
`.au` path contains `.` while an md5 hex digest cannot. -/
theorem hexKey_survives_hot_update (file key v : String)
    (cache : List (String × String)) (ftc : List (String × Nat))
    (hhex : isHexKey key = true)
    (hsuf : (".au".data).isSuffixOf file.data = true)
    (hmem : (key, v) ∈ cache) :
    (key, v) ∈ (handleHotUpdate file cache ftc).cacheEntries := by
  rw [handleHotUpdate, if_pos hsuf]
  refine List.mem_filter.2 ⟨hmem, ?_⟩
  simp only [Bool.not_eq_true']
  by_contra hcon
  have hcon2 : containsSub file.data key.data = true := by
    cases hcs : containsSub file.data key.data with
    | false => exact absurd hcs hcon
    | true => rfl
  have hsub := containsSub_subset hcon2
  have hdotkey : '.' ∈ key.data := hsub '.' (suffix_au_has_dot hsuf)
  have := (List.all_eq_true.1 hhex) '.' hdotkey
  simp at this

/-- Claim C9 is refuted by the code: `handleHotUpdate` only deletes
cache keys that contain the changed path as a substring, but keys are
md5 hex digests, which never contain a `.au` path (hex digits exclude
`.`); so no cache entry associated with the path is purged, even though
the recorded modification time is deleted and a reload is signalled.
At the concrete hex-digest key for `/src/app.au` the cache survives a
hot update of that very file intact; the no-op behaviour for
non-component files does hold. -/
theorem C9_hot_update_cache_not_purged :
    handleHotUpdate "/src/app.au"
        [("0a1b2c3d4e5f60718293a4b5c6d7e8f9", "compiled")] [("/src/app.au", 5)] =
      ⟨[("0a1b2c3d4e5f60718293a4b5c6d7e8f9", "compiled")], [], true⟩
    ∧ isHexKey "0a1b2c3d4e5f60718293a4b5c6d7e8f9" = true
    ∧ handleHotUpdate "/src/app.js" [("k1", "v1")] [("/q.au", 3)] =
      ⟨[("k1", "v1")], [("/q.au", 3)], false⟩ :=
  ⟨by decide, by decide, by decide⟩

end AureliaSfc
